import Mathlib

set_option linter.unusedVariables false

namespace CTI

/-- Model of a Python `str` value: its sequence of Unicode code points. -/
abbrev PyStr := List Char

/-- Characters removed by Python's `str.strip()` with no argument, restricted
to the ASCII range (the default strip set also covers further Unicode space
characters, none of which occur in the text handled by this system). -/
def isSpaceChar (c : Char) : Bool :=
  c.toNat = 32 || c.toNat = 9 || c.toNat = 10 || c.toNat = 13 ||
    c.toNat = 11 || c.toNat = 12

/-- Model of Python `str.strip()`: remove leading and trailing whitespace. -/
def pyStrip (l : PyStr) : PyStr :=
  ((l.dropWhile isSpaceChar).reverse.dropWhile isSpaceChar).reverse

/-- Model of Python `str.lower()` on one character, for the ASCII range
(Python also lowercases non-ASCII cased letters; all case-sensitive text
handled by this system is ASCII). -/
def pyLowerChar (c : Char) : Char :=
  if 65 ≤ c.toNat ∧ c.toNat ≤ 90 then Char.ofNat (c.toNat + 32) else c

/-- Model of Python `str.lower()`. -/
def pyLower (l : PyStr) : PyStr := l.map pyLowerChar

/-- Model of Python `str.split(sep)` for a one-character separator: the
result always has one more element than the number of separators, and
adjacent separators produce empty parts. -/
def splitOnChar (sep : Char) : PyStr → List PyStr
  | [] => [[]]
  | c :: cs =>
    match splitOnChar sep cs with
    | [] => [[]]
    | p :: ps => if c = sep then [] :: p :: ps else (c :: p) :: ps

/-- Lexicographic comparison of code-point sequences: the order Python uses
when comparing two `str` values, as in `max(last_seen, ioc['date_collected'])`
in `CTIDatabase.insert_or_update_iocs`. -/
def strCmp : PyStr → PyStr → Ordering
  | [], [] => .eq
  | [], _ :: _ => .lt
  | _ :: _, [] => .gt
  | a :: as, b :: bs =>
    if a.toNat < b.toNat then .lt
    else if b.toNat < a.toNat then .gt
    else strCmp as bs

/-- Python `a < b` on strings. -/
def strLt (a b : PyStr) : Bool := strCmp a b == Ordering.lt

/-- Python `max(a, b)` on strings: returns `a` when the two are equal. -/
def pyMax (a b : PyStr) : PyStr := if strLt a b then b else a

/-- Python `a <= b` on strings. -/
def strLe (a b : PyStr) : Bool := !(strLt b a)

/-- ASCII decimal digit: the class `[0-9]`, which is also what the
`octet_str.isascii() and octet_str.isdigit()` test of CPython's octet
parser accepts. -/
def isDigitChar (c : Char) : Bool := 48 ≤ c.toNat && c.toNat ≤ 57

/-- ASCII letter: the class `[a-zA-Z]`. -/
def isAlphaChar (c : Char) : Bool :=
  (65 ≤ c.toNat && c.toNat ≤ 90) || (97 ≤ c.toNat && c.toNat ≤ 122)

/-- Value of a string of ASCII decimal digits, as computed by `int(s)`. -/
def decValue (l : PyStr) : Nat := l.foldl (fun a c => a * 10 + (c.toNat - 48)) 0

/-- Model of CPython `ipaddress._parse_octet` (as of 3.9.5 and later): ASCII
decimal digits only, at most three of them, no leading zero, value at most
255; any violation raises, modelled as `none`. -/
def parseOctet (l : PyStr) : Option Nat :=
  if l = [] then none
  else if ¬ l.all isDigitChar then none
  else if 3 < l.length then none
  else if l ≠ ['0'] ∧ l.headD ' ' = '0' then none
  else if 255 < decValue l then none
  else some (decValue l)

/-- Collect a list of optional values, failing if any entry failed: the
effect of a Python loop that appends parse results and lets exceptions
propagate. -/
def seqOption {α : Type} : List (Option α) → Option (List α)
  | [] => some []
  | none :: _ => none
  | some a :: rest => (seqOption rest).map (a :: ·)

/-- Model of Python `sep.join(parts)` for a one-character separator:
inverse of `splitOnChar` on separator-free parts. -/
def joinSep (sep : Char) : List PyStr → PyStr
  | [] => []
  | [p] => p
  | p :: q :: t => p ++ sep :: joinSep sep (q :: t)

/-- Model of CPython `ipaddress.IPv4Address._ip_int_from_string`: split on
`'.'`, require exactly four octets, parse each. -/
def parseIPv4 (l : PyStr) : Option (List Nat) :=
  let parts := splitOnChar '.' l
  if parts.length = 4 then seqOption (parts.map parseOctet) else none

/-- Decimal digit character. -/
def decChar (k : Nat) : Char := "0123456789".data.getD k '0'

/-- Decimal rendering of one octet, as `'%d' % n` produces for `n ≤ 255`
(the only values an `IPv4Address` octet can hold). -/
def renderOctet (n : Nat) : PyStr :=
  if n < 10 then [decChar n]
  else if n < 100 then [decChar (n / 10), decChar (n % 10)]
  else [decChar (n / 100), decChar (n / 10 % 10), decChar (n % 10)]

/-- Model of `str()` on an `IPv4Address`: dot-joined decimal octets. -/
def renderIPv4 (os : List Nat) : PyStr := joinSep '.' (os.map renderOctet)

/-- Hexadecimal digit of either case: the character class `[a-fA-F0-9]` of
the hash regexes, and CPython's `ipaddress._HEX_DIGITS`. -/
def isHexDigitChar (c : Char) : Bool :=
  isDigitChar c || (97 ≤ c.toNat && c.toNat ≤ 102) || (65 ≤ c.toNat && c.toNat ≤ 70)

/-- Value of one hexadecimal digit character, as `int(c, 16)` computes it. -/
def hexCharVal (c : Char) : Nat :=
  if isDigitChar c then c.toNat - 48
  else if 97 ≤ c.toNat ∧ c.toNat ≤ 102 then c.toNat - 87
  else if 65 ≤ c.toNat ∧ c.toNat ≤ 70 then c.toNat - 55
  else 0

/-- Value of a string of hexadecimal digits, as `int(s, 16)` computes it. -/
def hexValue (l : PyStr) : Nat := l.foldl (fun a c => a * 16 + hexCharVal c) 0

/-- Model of CPython `ipaddress._parse_hextet`: one to four hexadecimal
digits (either case); anything else raises, modelled as `none`. -/
def parseHextet (l : PyStr) : Option Nat :=
  if l = [] then none
  else if ¬ l.all isHexDigitChar then none
  else if 4 < l.length then none
  else some (hexValue l)

/-- The arm of CPython's IPv6 parts analysis that handles exactly one `::`
marker at part index `si`: adjust the group counts at either edge, require
at least one omitted group, and assemble high groups, zeros and low
groups. -/
def ipv6Assemble (parts : List PyStr) (hi lo : Nat) : Option (List Nat) :=
  if 8 ≤ hi + lo then none
  else
    match seqOption ((parts.take hi).map parseHextet),
          seqOption ((parts.drop (parts.length - lo)).map parseHextet) with
    | some hv, some lv =>
        some (hv ++ List.replicate (8 - (hi + lo)) 0 ++ lv)
    | _, _ => none

def ipv6OneSkip (parts : List PyStr) (si : Nat) : Option (List Nat) :=
  let hi0 := si
  let lo0 := parts.length - si - 1
  let headEmpty := (parts.headD [' ']).isEmpty
  let lastEmpty := (parts.getLastD [' ']).isEmpty
  if headEmpty ∧ hi0 ≠ 1 then none
  else
    if lastEmpty ∧ lo0 ≠ 1 then none
    else
      ipv6Assemble parts (if headEmpty then hi0 - 1 else hi0)
        (if lastEmpty then lo0 - 1 else lo0)

/-- Model of CPython `ipaddress.IPv6Address._ip_int_from_string`, restricted
to the pure hexadecimal grammar: the trailing embedded-IPv4 form
(`::ffff:1.2.3.4`) and zone identifiers (`fe80::1%zone`) are not modelled,
so the modelled parser rejects those strings. CPython never renders either
form from `str()`, so canonical output strings are unaffected. The search
for the unique interior empty part marking `::`, the leading/trailing-colon
adjustments and the missing-group count reproduce the CPython control
flow. -/
def parseIPv6Parts (parts : List PyStr) : Option (List Nat) :=
  if parts.length < 3 then none
  else if 9 < parts.length then none
  else
    let mids := (parts.drop 1).dropLast
    if 2 ≤ mids.countP (·.isEmpty) then none
    else if mids.countP (·.isEmpty) = 1 then
      ipv6OneSkip parts (1 + mids.findIdx (·.isEmpty))
    else
      if parts.length ≠ 8 then none
      else seqOption (parts.map parseHextet)

/-- The full IPv6 textual parser: split on `':'` and analyse the parts. -/
def parseIPv6 (l : PyStr) : Option (List Nat) :=
  parseIPv6Parts (splitOnChar ':' l)

/-- One scan step of CPython `ipaddress._compress_hextets`: find the
leftmost longest run of zero hextets. Arguments: remaining hextets, index of
the next one, best run start, best run length, current run length. -/
def bestRunAux : List Nat → Nat → Nat → Nat → Nat → Nat × Nat
  | [], _, bs, bl, _ => (bs, bl)
  | v :: vs, i, bs, bl, cl =>
    if v = 0 then
      if bl < cl + 1 then bestRunAux vs (i + 1) (i - cl) (cl + 1) (cl + 1)
      else bestRunAux vs (i + 1) bs bl (cl + 1)
    else bestRunAux vs (i + 1) bs bl 0

/-- Leftmost longest run of zeros: start index and length. -/
def bestRun (l : List Nat) : Nat × Nat := bestRunAux l 0 0 0 0

/-- Lowercase hexadecimal digit character. -/
def hexChar (k : Nat) : Char := "0123456789abcdef".data.getD k '0'

/-- Lowercase hexadecimal rendering of one hextet, as `'%x' % n` produces
for `n < 65536` (the only values an `IPv6Address` hextet can hold). -/
def renderHextet (n : Nat) : PyStr :=
  if n < 16 then [hexChar n]
  else if n < 256 then [hexChar (n / 16), hexChar (n % 16)]
  else if n < 4096 then [hexChar (n / 256), hexChar (n / 16 % 16), hexChar (n % 16)]
  else [hexChar (n / 4096), hexChar (n / 256 % 16), hexChar (n / 16 % 16), hexChar (n % 16)]

/-- Model of `str()` on an `IPv6Address`: render each hextet in lowercase
hexadecimal, then (CPython `_compress_hextets`) replace the leftmost longest
run of zero hextets by an empty part whenever that run is longer than one,
duplicating the marker at either edge, and join everything with `':'`. -/
def renderIPv6 (hs : List Nat) : PyStr :=
  let bsbl := bestRun hs
  let parts :=
    if bsbl.2 ≤ 1 then hs.map renderHextet
    else
      (if bsbl.1 = 0 then [([] : PyStr)] else (hs.take bsbl.1).map renderHextet) ++
      [([] : PyStr)] ++
      (if bsbl.1 + bsbl.2 = hs.length then [([] : PyStr)]
       else (hs.drop (bsbl.1 + bsbl.2)).map renderHextet)
  joinSep ':' parts

/-- Parsed value of Python `ipaddress.ip_address`: a v4 address as its four
octets or a v6 address as its eight hextets. -/
inductive IpAddr
  | v4 (octets : List Nat)
  | v6 (hextets : List Nat)
deriving DecidableEq

/-- Model of `ipaddress.ip_address(s)`: try IPv4 first, then IPv6; raise
(modelled as `none`) when both fail. -/
def parseIP (l : PyStr) : Option IpAddr :=
  match parseIPv4 l with
  | some os => some (.v4 os)
  | none =>
    match parseIPv6 l with
    | some hs => some (.v6 hs)
    | none => none

/-- Model of `str()` on an `ipaddress` address object. -/
def renderIP : IpAddr → PyStr
  | .v4 os => renderIPv4 os
  | .v6 hs => renderIPv6 hs

/-- Model of `IoCNormalizer.is_ip` (normalization.py lines 24-30):
`ipaddress.ip_address(value.strip())` succeeds. -/
def is_ip (value : PyStr) : Bool := (parseIP (pyStrip value)).isSome

/-- Model of `IoCNormalizer.is_hash` (normalization.py lines 32-38): the
stripped value fully matches one of the three anchored patterns
`[a-fA-F0-9]` repeated exactly 32, 40 or 64 times. -/
def is_hash (value : PyStr) : Bool :=
  let v := pyStrip value
  (v.length = 32 || v.length = 40 || v.length = 64) && v.all isHexDigitChar

/-- Model of `IoCNormalizer.is_url` (normalization.py lines 40-43): the
stripped value starts with `http://` or `https://` (case-sensitive). -/
def is_url (value : PyStr) : Bool :=
  let v := pyStrip value
  List.isPrefixOf "http://".data v || List.isPrefixOf "https://".data v

/-- Model of `IoCNormalizer.is_domain` (normalization.py lines 45-50): not a
URL and not an IP, contains a dot, at most 253 characters, does not start
with a dot. -/
def is_domain (value : PyStr) : Bool :=
  let v := pyStrip value
  if is_url v || is_ip v then false
  else v.contains '.' && v.length ≤ 253 && !(List.isPrefixOf ['.'] v)

/-- Character class `[a-zA-Z0-9._%+-]` of the email regex's local part. -/
def isLocalChar (c : Char) : Bool :=
  isAlphaChar c || isDigitChar c || c = '.' || c = '_' || c = '%' || c = '+' || c = '-'

/-- Character class `[a-zA-Z0-9.-]` of the email regex's domain part. -/
def isDomPartChar (c : Char) : Bool :=
  isAlphaChar c || isDigitChar c || c = '.' || c = '-'

/-- Decision procedure for the anchored regex fragment
`[a-zA-Z0-9.-]+\.[a-zA-Z]{2,}$`: since the final letter block admits no dot,
a match must split the string at its last dot, with a nonempty class-valid
part before it and at least two letters after it. -/
def emailDomainOK (d : PyStr) : Bool :=
  let tldRev := d.reverse.takeWhile (fun c => c ≠ '.')
  let rest := d.reverse.drop tldRev.length
  let pre := (rest.drop 1).reverse
  !rest.isEmpty && !pre.isEmpty && pre.all isDomPartChar &&
    2 ≤ tldRev.length && tldRev.all isAlphaChar

/-- Model of `IoCNormalizer.is_email` (normalization.py lines 52-56): the
stripped value fully matches `[a-zA-Z0-9._%+-]+@[a-zA-Z0-9.-]+\.[a-zA-Z]{2,}`.
No character class of that regex admits `'@'`, so a match requires exactly
one `'@'`, splitting the string into a local part and a domain part. -/
def is_email (value : PyStr) : Bool :=
  let v := pyStrip value
  match splitOnChar '@' v with
  | [localPart, domPart] =>
    !localPart.isEmpty && localPart.all isLocalChar && emailDomainOK domPart
  | _ => false

/-- Model of `IoCNormalizer.detect_type` (normalization.py lines 58-75):
empty string is Unknown; otherwise the rules are tried in the fixed order
IP, Hash, URL, Email, Domain, returning at the first match. -/
def detect_type (value : PyStr) : String :=
  if value = [] then "Unknown"
  else if is_ip value then "IP"
  else if is_hash value then "Hash"
  else if is_url value then "URL"
  else if is_email value then "Email"
  else if is_domain value then "Domain"
  else "Unknown"

/-- Model of `IoCNormalizer.normalize_indicator` (normalization.py lines
77-100): strip, then lowercase URLs, domains and hashes, reformat IP
addresses through `ipaddress.ip_address` (falling back to the stripped
string when reparsing raises), and otherwise return the stripped string. -/
def normalize_indicator (indicator : PyStr) : PyStr :=
  let i := pyStrip indicator
  if is_url i then pyLower i
  else if is_domain i then pyLower i
  else if is_hash i then pyLower i
  else if is_ip i then
    match parseIP i with
    | some a => renderIP a
    | none => i
  else i

/-- Model of the Python objects a record's `metadata` key can hold: all this
development observes about such an object is whether `json.dumps` succeeds
on it and, when it does, which text it produces. -/
inductive PyMeta
  | serializable (dump : PyStr)
  | unserializable
deriving DecidableEq

/-- Model of `json.dumps`: `none` models a raised `TypeError`. -/
def jsonDumps : PyMeta → Option PyStr
  | .serializable d => some d
  | .unserializable => none

/-- The empty dict, the default of `ioc.get('metadata', ...)`; `json.dumps`
renders it as the two-character text `\x7b\x7d`. -/
def PyMeta.emptyDict : PyMeta := .serializable "\x7b\x7d".data

/-- Model of one Python dict handed to `insert_or_update_iocs`: each field
is `none` when the key is absent (so that a subscript access raises
`KeyError`) and `some` of the value when present. -/
structure InputIoc where
  indicator : Option PyStr
  type : Option PyStr
  source : Option PyStr
  date_collected : Option PyStr
  confidence : Option PyStr
  threat_level : Option PyStr
  metadata : Option PyMeta
deriving DecidableEq

/-- Model of one row of the `iocs` table (database.py lines 27-41); the
`created_at` column is never read by the system and is omitted. -/
structure StoredIoc where
  indicator : PyStr
  type : PyStr
  source : PyStr
  first_seen : PyStr
  last_seen : PyStr
  seen_count : Nat
  confidence : PyStr
  threat_level : PyStr
  metadata : PyStr
deriving DecidableEq

/-- Model of `IoCNormalizer.validate_ioc` (normalization.py lines 124-127):
`all(field in ioc for field in ['indicator', 'type', 'source'])` — the three
keys are present, whatever their values. -/
def validate_ioc (ioc : InputIoc) : Bool :=
  ioc.indicator.isSome && ioc.type.isSome && ioc.source.isSome

/-- The literal `'medium'`, the default for `confidence` and `threat_level`. -/
def medium : PyStr := "medium".data

/-- Outcome tag of one successful upsert iteration. -/
inductive RowAction
  | inserted
  | updated
deriving DecidableEq

/-- Counters built by `insert_or_update_iocs` (database.py line 63). -/
structure UpsertStats where
  processed : Nat
  new : Nat
  updated : Nat
  errors : Nat
deriving DecidableEq

/-- Body of the `for ioc in iocs` loop of `CTIDatabase.insert_or_update_iocs`
(database.py lines 69-109), up to and excluding the `except` handler: the
SELECT by `(indicator, type)`, then either the INSERT of a fresh row (seen
count 1, `first_seen` and `last_seen` both the collection date, defaulted
confidence, threat level and metadata) or the UPDATE of every row with that
key (`last_seen` maxed, seen count from the selected row plus one, the other
mutable fields overwritten). `.error ()` models any raised exception: a
missing dict key, or `json.dumps` failing on unserializable metadata. -/
def processIoc (store : List StoredIoc) (ioc : InputIoc) :
    Except Unit (List StoredIoc × RowAction) :=
  match ioc.indicator, ioc.type with
  | some ind, some ty =>
    match store.find? (fun r => r.indicator == ind && r.type == ty) with
    | none =>
      match ioc.source, ioc.date_collected,
            jsonDumps (ioc.metadata.getD PyMeta.emptyDict) with
      | some src, some dc, some md =>
        .ok (store ++ [{ indicator := ind, type := ty, source := src,
                         first_seen := dc, last_seen := dc, seen_count := 1,
                         confidence := ioc.confidence.getD medium,
                         threat_level := ioc.threat_level.getD medium,
                         metadata := md }], .inserted)
      | _, _, _ => .error ()
    | some row =>
      match ioc.source, ioc.date_collected,
            jsonDumps (ioc.metadata.getD PyMeta.emptyDict) with
      | some src, some dc, some md =>
        .ok (store.map (fun r =>
              if r.indicator == ind && r.type == ty then
                { r with last_seen := pyMax row.last_seen dc,
                         seen_count := row.seen_count + 1,
                         source := src,
                         confidence := ioc.confidence.getD medium,
                         threat_level := ioc.threat_level.getD medium,
                         metadata := md }
              else r), .updated)
      | _, _, _ => .error ()
  | _, _ => .error ()

/-- Result of a batch upsert. `aborted = true` models the one way the
`except` handler itself raises: its log line interpolates
`ioc['indicator']`, so when the failed record has no `indicator` key the
`KeyError` escapes, the loop and the final commit never run, and the caller
receives an exception instead of `stats`; `store` and `stats` then hold the
connection's state at that moment. -/
structure UpsertResult where
  store : List StoredIoc
  stats : UpsertStats
  aborted : Bool
deriving DecidableEq

/-- The `for ioc in iocs` loop of `CTIDatabase.insert_or_update_iocs`
(database.py lines 65-113): `processed` is bumped for every record
attempted, the try body runs, and on an exception `errors` is bumped and
the handler's log line re-raises exactly when the record lacks an
`indicator` key. -/
def upsertGo (store : List StoredIoc) (iocs : List InputIoc)
    (stats : UpsertStats) : UpsertResult :=
  match iocs with
  | [] => ⟨store, stats, false⟩
  | ioc :: rest =>
    let stats1 := { stats with processed := stats.processed + 1 }
    match processIoc store ioc with
    | .ok (store', .inserted) =>
        upsertGo store' rest { stats1 with new := stats1.new + 1 }
    | .ok (store', .updated) =>
        upsertGo store' rest { stats1 with updated := stats1.updated + 1 }
    | .error _ =>
      let stats2 := { stats1 with errors := stats1.errors + 1 }
      if ioc.indicator.isSome then upsertGo store rest stats2
      else ⟨store, stats2, true⟩

/-- Model of `CTIDatabase.insert_or_update_iocs` (database.py lines 60-116). -/
def insert_or_update_iocs (store : List StoredIoc) (iocs : List InputIoc) :
    UpsertResult :=
  upsertGo store iocs ⟨0, 0, 0, 0⟩

/-- A record (dict) that carries every key the upsert reads, with
serializable metadata: exactly what `IoCNormalizer.normalize_ioc` always
produces. -/
def iocComplete (ioc : InputIoc) : Prop :=
  ioc.indicator.isSome ∧ ioc.type.isSome ∧ ioc.source.isSome ∧
    ioc.date_collected.isSome ∧
    (jsonDumps (ioc.metadata.getD PyMeta.emptyDict)).isSome

instance (ioc : InputIoc) : Decidable (iocComplete ioc) := by
  unfold iocComplete; infer_instance

/-- The store invariant of the spec: every row has
`first_seen <= last_seen` and a positive seen count, and the
`(indicator, type)` key is unique across rows. -/
def StoreInvariant (s : List StoredIoc) : Prop :=
  (∀ r ∈ s, strLe r.first_seen r.last_seen = true ∧ 1 ≤ r.seen_count) ∧
    List.Pairwise (fun a b => (a.indicator, a.type) ≠ (b.indicator, b.type)) s

/-- Model of one row of the `collection_logs` table (database.py lines
44-56); the autoincrement id and `created_at` are never read and omitted. -/
structure LogEntry where
  source : PyStr
  collection_time : PyStr
  iocs_processed : Nat
  iocs_new : Nat
  iocs_updated : Nat
  errors : Option PyStr
  status : PyStr
deriving DecidableEq

/-- Model of `CTIDatabase.log_collection` (database.py lines 166-178):
append one row; status is `success` when `errors` is falsy (absent or the
empty string), `error` otherwise. `now` stands for
`datetime.now().isoformat()`. -/
def log_collection (logs : List LogEntry) (source : PyStr) (now : PyStr)
    (stats : UpsertStats) (errors : Option PyStr) : List LogEntry :=
  logs ++ [{ source := source, collection_time := now,
             iocs_processed := stats.processed, iocs_new := stats.new,
             iocs_updated := stats.updated, errors := errors,
             status := if errors.getD [] = [] then "success".data
                       else "error".data }]

/-- The two persistent tables of `CTIDatabase`. -/
structure DBState where
  iocs : List StoredIoc
  logs : List LogEntry
deriving DecidableEq

/-- Dictionary returned by `CTIScheduler.run_collection`. -/
structure CycleResult where
  status : String
  stats : UpsertStats
  errors : List PyStr
  total_collected : Nat
deriving DecidableEq

/-- Outcome of one fetch attempt against an external feed, as seen by
`run_collection`: a list of normalized records, or the error message built
by the surrounding `except` block. -/
abbrev FeedResult := Except PyStr (List InputIoc)

/-- The `all_iocs` accumulator of `run_collection` (scheduler.py lines
28-78): items of successful fetches concatenated in feed order; failed
fetches contribute nothing. -/
def collectedIocs (feeds : List FeedResult) : List InputIoc :=
  feeds.foldr (fun f acc => match f with | .ok items => items ++ acc | .error _ => acc) []

/-- The `collection_errors` accumulator of `run_collection`: one message per
failed fetch, in feed order. -/
def collectionErrors (feeds : List FeedResult) : List PyStr :=
  feeds.foldr (fun f acc => match f with | .ok _ => acc | .error e => e :: acc) []

/-- The `"; ".join(collection_errors)` summary. -/
def semicolonJoin (l : List PyStr) : PyStr := List.intercalate "; ".data l

/-- Model of `CTIScheduler.run_collection` (scheduler.py lines 23-104),
with the per-feed fetch outcomes supplied as input. When `all_iocs` is
nonempty the batch is upserted and a log row appended; when
`insert_or_update_iocs` raises (`aborted`), the exception propagates out of
`run_collection`, modelled by a `none` result, with the store holding the
aborted batch's uncommitted mutations and no log row. When `all_iocs` is
empty the database is untouched and the `no_data` result returned. -/
def run_collection (db : DBState) (feeds : List FeedResult) (now : PyStr) :
    DBState × Option CycleResult :=
  let all_iocs := collectedIocs feeds
  let errs := collectionErrors feeds
  if all_iocs ≠ [] then
    let r := insert_or_update_iocs db.iocs all_iocs
    if r.aborted then ({ db with iocs := r.store }, none)
    else
      let summary := if errs ≠ [] then some (semicolonJoin errs) else none
      ({ iocs := r.store,
         logs := log_collection db.logs "CTI_Collector".data now r.stats summary },
       some ⟨"success", r.stats, errs, all_iocs.length⟩)
  else
    (db, some ⟨"no_data", ⟨0, 0, 0, 0⟩, errs, 0⟩)

/-! ### Character-level lemmas -/

theorem pyLowerChar_of_upper {c : Char} (h₁ : 65 ≤ c.toNat) (h₂ : c.toNat ≤ 90) :
    (pyLowerChar c).toNat = c.toNat + 32 := by
  have hv : Nat.isValidChar (c.toNat + 32) := Or.inl (by omega)
  unfold pyLowerChar
  rw [if_pos ⟨h₁, h₂⟩]
  simp only [Char.ofNat, hv, dif_pos, Char.ofNatAux]
  rfl

theorem pyLowerChar_eq_self {c : Char} (h : ¬(65 ≤ c.toNat ∧ c.toNat ≤ 90)) :
    pyLowerChar c = c := by
  unfold pyLowerChar; rw [if_neg h]

theorem pyLowerChar_cases (c : Char) :
    (65 ≤ c.toNat ∧ c.toNat ≤ 90 ∧ (pyLowerChar c).toNat = c.toNat + 32) ∨
      (¬(65 ≤ c.toNat ∧ c.toNat ≤ 90) ∧ pyLowerChar c = c) := by
  by_cases h : 65 ≤ c.toNat ∧ c.toNat ≤ 90
  · exact Or.inl ⟨h.1, h.2, pyLowerChar_of_upper h.1 h.2⟩
  · exact Or.inr ⟨h, pyLowerChar_eq_self h⟩

theorem pyLowerChar_idem (c : Char) :
    pyLowerChar (pyLowerChar c) = pyLowerChar c := by
  rcases pyLowerChar_cases c with ⟨h₁, h₂, h₃⟩ | ⟨_, he⟩
  · exact pyLowerChar_eq_self (by omega)
  · rw [he, he]

theorem pyLower_idem (l : PyStr) : pyLower (pyLower l) = pyLower l := by
  unfold pyLower
  rw [List.map_map]
  exact List.map_congr_left fun c _ => pyLowerChar_idem c

theorem isSpaceChar_toNat {c : Char} :
    isSpaceChar c = true ↔ (c.toNat = 32 ∨ c.toNat = 9 ∨ c.toNat = 10 ∨
      c.toNat = 13 ∨ c.toNat = 11 ∨ c.toNat = 12) := by
  simp only [isSpaceChar, Bool.or_eq_true, decide_eq_true_eq]
  tauto

theorem isDigitChar_toNat {c : Char} :
    isDigitChar c = true ↔ 48 ≤ c.toNat ∧ c.toNat ≤ 57 := by
  simp [isDigitChar]

theorem isHexDigitChar_toNat {c : Char} :
    isHexDigitChar c = true ↔ (48 ≤ c.toNat ∧ c.toNat ≤ 57) ∨
      (97 ≤ c.toNat ∧ c.toNat ≤ 102) ∨ (65 ≤ c.toNat ∧ c.toNat ≤ 70) := by
  simp only [isHexDigitChar, isDigitChar, Bool.or_eq_true, Bool.and_eq_true,
    decide_eq_true_eq]
  tauto

theorem isSpaceChar_eq_false_of_ge {c : Char} (h : 33 ≤ c.toNat) :
    isSpaceChar c = false := by
  cases hb : isSpaceChar c with
  | false => rfl
  | true => rw [isSpaceChar_toNat] at hb; omega

theorem isHexDigitChar_not_space {c : Char} (h : isHexDigitChar c = true) :
    isSpaceChar c = false := by
  rw [isHexDigitChar_toNat] at h
  exact isSpaceChar_eq_false_of_ge (by omega)

/-- A character satisfying a decidable class is distinct from any character
failing it. -/
theorem ne_of_sat {c d : Char} (p : Char → Bool) (h : p c = true)
    (hd : p d = false) : c ≠ d := by
  intro he; rw [he, hd] at h; exact Bool.noConfusion h

theorem isSpaceChar_pyLowerChar (c : Char) :
    isSpaceChar (pyLowerChar c) = isSpaceChar c := by
  rcases pyLowerChar_cases c with ⟨h₁, h₂, h₃⟩ | ⟨_, he⟩
  · rw [isSpaceChar_eq_false_of_ge (by omega : 33 ≤ c.toNat),
      isSpaceChar_eq_false_of_ge (by omega)]
  · rw [he]

theorem pyLowerChar_eq_iff_lt65 {c d : Char} (hd : d.toNat < 65) :
    pyLowerChar c = d ↔ c = d := by
  constructor
  · intro h
    rcases pyLowerChar_cases c with ⟨h₁, h₂, h₃⟩ | ⟨_, he⟩
    · have ht := congrArg Char.toNat h
      rw [h₃] at ht; omega
    · rwa [he] at h
  · intro h; subst h; exact pyLowerChar_eq_self (by omega)

theorem mem_pyLower_iff_lt65 {d : Char} (hd : d.toNat < 65) (l : PyStr) :
    d ∈ pyLower l ↔ d ∈ l := by
  unfold pyLower
  rw [List.mem_map]
  constructor
  · rintro ⟨a, ha, he⟩
    rwa [(pyLowerChar_eq_iff_lt65 hd).mp he] at ha
  · intro h; exact ⟨d, h, (pyLowerChar_eq_iff_lt65 hd).mpr rfl⟩

/-! ### Strip lemmas -/

/-- No leading whitespace: the shape `dropWhile` leaves behind. -/
def NoLead (l : PyStr) : Prop :=
  ∀ c, l.head? = some c → isSpaceChar c = false

theorem dropWhile_eq_self_of_noLead {p : Char → Bool} {l : PyStr}
    (h : ∀ c, l.head? = some c → p c = false) : l.dropWhile p = l := by
  cases l with
  | nil => rfl
  | cons a t =>
    rw [List.dropWhile_cons, h a rfl]
    simp

theorem noLead_dropWhile (p : Char → Bool) (l : PyStr) :
    ∀ c, (l.dropWhile p).head? = some c → p c = false := by
  induction l with
  | nil => intro c h; simp at h
  | cons a t ih =>
    intro c h
    rw [List.dropWhile_cons] at h
    by_cases hp : p a = true
    · rw [if_pos hp] at h; exact ih c h
    · rw [if_neg hp] at h
      simp only [List.head?_cons, Option.some.injEq] at h
      subst h
      exact Bool.not_eq_true _ ▸ hp

theorem head?_of_front {l₁ l₂ : PyStr} (h : l₁ <+: l₂) (hne : l₁ ≠ []) :
    l₁.head? = l₂.head? := by
  obtain ⟨t, rfl⟩ := h
  cases l₁ with
  | nil => exact absurd rfl hne
  | cons a t₁ => rfl

theorem pyStrip_noLead (l : PyStr) : NoLead (pyStrip l) := by
  intro c hc
  unfold pyStrip at hc
  set A := l.dropWhile isSpaceChar with hA
  set u := A.reverse.dropWhile isSpaceChar with hu
  have hsuf : u <:+ A.reverse := List.dropWhile_suffix _
  have hpre : u.reverse <+: A := by
    have := hsuf.reverse
    rwa [List.reverse_reverse] at this
  have hne : u.reverse ≠ [] := by
    intro he; rw [he] at hc; exact Option.noConfusion hc
  rw [head?_of_front hpre hne] at hc
  exact noLead_dropWhile _ l c hc

theorem pyStrip_noTail (l : PyStr) : NoLead (pyStrip l).reverse := by
  intro c hc
  unfold pyStrip at hc
  rw [List.reverse_reverse] at hc
  exact noLead_dropWhile _ _ c hc

theorem pyStrip_eq_self_of (l : PyStr) (h₁ : NoLead l) (h₂ : NoLead l.reverse) :
    pyStrip l = l := by
  unfold pyStrip
  rw [dropWhile_eq_self_of_noLead h₁, dropWhile_eq_self_of_noLead h₂,
    List.reverse_reverse]

theorem pyStrip_idem (l : PyStr) : pyStrip (pyStrip l) = pyStrip l :=
  pyStrip_eq_self_of _ (pyStrip_noLead l) (pyStrip_noTail l)

theorem pyStrip_eq_self_of_all {l : PyStr}
    (h : ∀ c ∈ l, isSpaceChar c = false) : pyStrip l = l := by
  refine pyStrip_eq_self_of l (fun c hc => ?_) (fun c hc => ?_)
  · exact h c (List.mem_of_mem_head? hc)
  · exact h c (List.mem_reverse.mp (List.mem_of_mem_head? hc))

/-! ### Split and join lemmas -/

theorem splitOnChar_ne_nil (sep : Char) (l : PyStr) : splitOnChar sep l ≠ [] := by
  induction l with
  | nil => simp [splitOnChar]
  | cons c cs ih =>
    unfold splitOnChar
    cases h : splitOnChar sep cs with
    | nil => simp
    | cons p ps =>
      dsimp only
      split <;> simp

theorem splitOnChar_of_not_mem {sep : Char} {l : PyStr} (h : sep ∉ l) :
    splitOnChar sep l = [l] := by
  induction l with
  | nil => rfl
  | cons c cs ih =>
    have hcs : sep ∉ cs := fun hx => h (List.mem_cons_of_mem _ hx)
    have hc : c ≠ sep := fun he => h (he ▸ List.mem_cons_self _ _)
    unfold splitOnChar
    rw [ih hcs]
    dsimp only
    rw [if_neg hc]

theorem splitOnChar_cons (sep c : Char) (cs : PyStr) :
    splitOnChar sep (c :: cs) =
      match splitOnChar sep cs with
      | [] => [[]]
      | p :: ps => if c = sep then [] :: p :: ps else (c :: p) :: ps := rfl

theorem splitOnChar_append_sep {sep : Char} {p t : PyStr} (h : sep ∉ p) :
    splitOnChar sep (p ++ sep :: t) = p :: splitOnChar sep t := by
  induction p with
  | nil =>
    show splitOnChar sep (sep :: t) = [] :: splitOnChar sep t
    cases hq : splitOnChar sep t with
    | nil => exact absurd hq (splitOnChar_ne_nil sep t)
    | cons q qs => rw [splitOnChar_cons, hq]; dsimp only; rw [if_pos rfl]
  | cons d p' ih =>
    have hp' : sep ∉ p' := fun hx => h (List.mem_cons_of_mem _ hx)
    have hd : d ≠ sep := fun he => h (he ▸ List.mem_cons_self _ _)
    show splitOnChar sep (d :: (p' ++ sep :: t)) = (d :: p') :: splitOnChar sep t
    rw [splitOnChar_cons, ih hp']
    dsimp only
    rw [if_neg hd]

theorem splitOnChar_joinSep {sep : Char} {parts : List PyStr}
    (hne : parts ≠ []) (h : ∀ p ∈ parts, sep ∉ p) :
    splitOnChar sep (joinSep sep parts) = parts := by
  induction parts with
  | nil => exact absurd rfl hne
  | cons p rest ih =>
    cases rest with
    | nil =>
      show splitOnChar sep p = [p]
      exact splitOnChar_of_not_mem (h p (List.mem_cons_self _ _))
    | cons q t =>
      show splitOnChar sep (p ++ sep :: joinSep sep (q :: t)) = p :: q :: t
      rw [splitOnChar_append_sep (h p (List.mem_cons_self _ _)),
        ih (by simp) (fun x hx => h x (List.mem_cons_of_mem _ hx))]

theorem exists_part_of_mem {sep x : Char} {l : PyStr} (hx : x ∈ l)
    (hne : x ≠ sep) : ∃ p ∈ splitOnChar sep l, x ∈ p := by
  induction l with
  | nil => simp at hx
  | cons c cs ih =>
    unfold splitOnChar
    cases hq : splitOnChar sep cs with
    | nil => exact absurd hq (splitOnChar_ne_nil sep cs)
    | cons p ps =>
      dsimp only
      rcases List.mem_cons.mp hx with rfl | hmem
      · rw [if_neg hne]
        exact ⟨x :: p, List.mem_cons_self _ _, List.mem_cons_self _ _⟩
      · obtain ⟨q, hq₁, hq₂⟩ := ih hmem
        rw [hq] at hq₁
        by_cases hc : c = sep
        · rw [if_pos hc]
          exact ⟨q, List.mem_cons_of_mem _ hq₁, hq₂⟩
        · rw [if_neg hc]
          rcases List.mem_cons.mp hq₁ with rfl | hps
          · exact ⟨c :: q, List.mem_cons_self _ _, List.mem_cons_of_mem _ hq₂⟩
          · exact ⟨q, List.mem_cons_of_mem _ hps, hq₂⟩

theorem splitOnChar_map {sep : Char} (f : Char → Char)
    (hf : ∀ c, f c = sep ↔ c = sep) (l : PyStr) :
    splitOnChar sep (l.map f) = (splitOnChar sep l).map (List.map f) := by
  induction l with
  | nil => rfl
  | cons c cs ih =>
    show splitOnChar sep (f c :: cs.map f) = _
    unfold splitOnChar
    rw [ih]
    cases hq : splitOnChar sep cs with
    | nil => exact absurd hq (splitOnChar_ne_nil sep cs)
    | cons p ps =>
      dsimp only [List.map_cons]
      by_cases hc : c = sep
      · rw [if_pos ((hf c).mpr hc), if_pos hc]; rfl
      · rw [if_neg (fun he => hc ((hf c).mp he)), if_neg hc]; rfl

theorem mem_joinSep {sep x : Char} {parts : List PyStr} :
    x ∈ joinSep sep parts ↔ x = sep ∧ 2 ≤ parts.length ∨ ∃ p ∈ parts, x ∈ p := by
  induction parts with
  | nil => simp [joinSep]
  | cons p rest ih =>
    cases rest with
    | nil => simp [joinSep]
    | cons q t =>
      show x ∈ p ++ sep :: joinSep sep (q :: t) ↔ _
      rw [List.mem_append, List.mem_cons, ih]
      constructor
      · rintro (hp | rfl | ⟨hs, _⟩ | ⟨r, hr₁, hr₂⟩)
        · exact Or.inr ⟨p, List.mem_cons_self _ _, hp⟩
        · exact Or.inl ⟨rfl, by simp⟩
        · exact Or.inl ⟨hs, by simp⟩
        · exact Or.inr ⟨r, List.mem_cons_of_mem _ hr₁, hr₂⟩
      · rintro (⟨rfl, _⟩ | ⟨r, hr₁, hr₂⟩)
        · exact Or.inr (Or.inl rfl)
        · rcases List.mem_cons.mp hr₁ with rfl | hrest
          · exact Or.inl hr₂
          · exact Or.inr (Or.inr (Or.inr ⟨r, hrest, hr₂⟩))

/-! ### Lexicographic string-order lemmas -/

theorem strCmp_self (l : PyStr) : strCmp l l = .eq := by
  induction l with
  | nil => rfl
  | cons a t ih =>
    unfold strCmp
    rw [if_neg (by omega), if_neg (by omega)]
    exact ih

theorem strLt_irrefl (l : PyStr) : strLt l l = false := by
  unfold strLt
  rw [strCmp_self]
  rfl

theorem strLt_trans {a b c : PyStr} (h₁ : strLt a b = true)
    (h₂ : strLt b c = true) : strLt a c = true := by
  simp only [strLt, beq_iff_eq] at h₁ h₂ ⊢
  induction a generalizing b c with
  | nil =>
    cases c with
    | nil =>
      cases b with
      | nil => exact h₁
      | cons bh bt => unfold strCmp at h₂; exact absurd h₂ (by decide)
    | cons ch ct => rfl
  | cons ah at' ih =>
    cases b with
    | nil => unfold strCmp at h₁; exact absurd h₁ (by decide)
    | cons bh bt =>
      cases c with
      | nil => unfold strCmp at h₂; exact absurd h₂ (by decide)
      | cons ch ct =>
        unfold strCmp at h₁ h₂ ⊢
        split_ifs at h₁ h₂ ⊢ <;>
          first
            | rfl
            | omega
            | exact absurd h₁ (by decide)
            | exact absurd h₂ (by decide)
            | exact ih h₁ h₂

theorem strLe_pyMax_left (a b : PyStr) : strLe a (pyMax a b) = true := by
  unfold pyMax
  by_cases h : strLt a b = true
  · rw [if_pos h]
    unfold strLe
    cases hba : strLt b a with
    | false => rfl
    | true =>
      have := strLt_trans h hba
      rw [strLt_irrefl] at this
      exact Bool.noConfusion this
  · rw [if_neg h]
    unfold strLe
    rw [strLt_irrefl]
    rfl

theorem strLe_trans_lt {f l d : PyStr} (h₁ : strLe f l = true)
    (h₂ : strLt l d = true) : strLe f d = true := by
  unfold strLe at *
  cases hdf : strLt d f with
  | false => rfl
  | true =>
    have := strLt_trans h₂ hdf
    rw [this] at h₁
    exact Bool.noConfusion h₁

theorem strLe_pyMax {f l d : PyStr} (h : strLe f l = true) :
    strLe f (pyMax l d) = true := by
  unfold pyMax
  by_cases hld : strLt l d = true
  · rw [if_pos hld]; exact strLe_trans_lt h hld
  · rw [if_neg hld]; exact h

/-! ### seqOption lemmas -/

theorem seqOption_map_some {α β : Type} (f : β → Option α) (g : β → α)
    (l : List β) (h : ∀ x ∈ l, f x = some (g x)) :
    seqOption (l.map f) = some (l.map g) := by
  induction l with
  | nil => rfl
  | cons a t ih =>
    show seqOption (f a :: t.map f) = _
    rw [h a (List.mem_cons_self _ _)]
    show (seqOption (t.map f)).map _ = _
    rw [ih (fun x hx => h x (List.mem_cons_of_mem _ hx))]
    rfl

theorem seqOption_none {α β : Type} (f : β → Option α) {l : List β} {x : β}
    (hx : x ∈ l) (hf : f x = none) : seqOption (l.map f) = none := by
  induction l with
  | nil => simp at hx
  | cons a t ih =>
    show seqOption (f a :: t.map f) = none
    rcases List.mem_cons.mp hx with rfl | hmem
    · rw [hf]; rfl
    · cases hfa : f a with
      | none => rfl
      | some v =>
        show (seqOption (t.map f)).map _ = none
        rw [ih hmem]
        rfl

theorem seqOption_length {α : Type} {L : List (Option α)} :
    ∀ {xs : List α}, seqOption L = some xs → xs.length = L.length := by
  induction L with
  | nil =>
    intro xs h
    have : ([] : List α) = xs := Option.some.inj h
    rw [← this]; rfl
  | cons o t ih =>
    intro xs h
    cases o with
    | none => exact absurd h (by simp [seqOption])
    | some a =>
      have h' : (seqOption t).map (a :: ·) = some xs := h
      cases ht : seqOption t with
      | none => rw [ht] at h'; exact absurd h' (by simp)
      | some ys =>
        rw [ht] at h'
        have : a :: ys = xs := Option.some.inj h'
        rw [← this, List.length_cons, List.length_cons, ih ht]

theorem seqOption_mem {α : Type} {L : List (Option α)} :
    ∀ {xs : List α}, seqOption L = some xs → ∀ x ∈ xs, some x ∈ L := by
  induction L with
  | nil =>
    intro xs h x hx
    have : ([] : List α) = xs := Option.some.inj h
    rw [← this] at hx; simp at hx
  | cons o t ih =>
    intro xs h x hx
    cases o with
    | none => exact absurd h (by simp [seqOption])
    | some a =>
      have h' : (seqOption t).map (a :: ·) = some xs := h
      cases ht : seqOption t with
      | none => rw [ht] at h'; exact absurd h' (by simp)
      | some ys =>
        rw [ht] at h'
        have hys : a :: ys = xs := Option.some.inj h'
        rw [← hys] at hx
        rcases List.mem_cons.mp hx with rfl | hmem
        · exact List.mem_cons_self _ _
        · exact List.mem_cons_of_mem _ (ih ht x hmem)

/-! ### Digit rendering lemmas -/

theorem decChar_spec : ∀ k, k < 10 →
    isDigitChar (decChar k) = true ∧ (decChar k).toNat = k + 48 := by decide

theorem decChar_ne_zero : ∀ k, 1 ≤ k → k < 10 → decChar k ≠ '0' := by decide

theorem hexChar_spec : ∀ k, k < 16 →
    isHexDigitChar (hexChar k) = true ∧ hexCharVal (hexChar k) = k := by decide

theorem hexCharVal_lt (c : Char) : hexCharVal c < 16 := by
  unfold hexCharVal
  split_ifs with h1 h2 h3
  · rw [isDigitChar_toNat] at h1; omega
  · omega
  · omega
  · omega

theorem renderOctet_digits {n : Nat} (h : n ≤ 255) :
    ∀ c ∈ renderOctet n, isDigitChar c = true := by
  unfold renderOctet
  split_ifs with h1 h2 <;> intro c hc <;>
    simp only [List.mem_cons, List.not_mem_nil, or_false] at hc
  · rw [hc]; exact (decChar_spec n h1).1
  · rcases hc with hc | hc <;> rw [hc]
    · exact (decChar_spec _ (by omega)).1
    · exact (decChar_spec _ (by omega)).1
  · rcases hc with hc | hc | hc <;> rw [hc]
    · exact (decChar_spec _ (by omega)).1
    · exact (decChar_spec _ (by omega)).1
    · exact (decChar_spec _ (by omega)).1

theorem renderHextet_hex {n : Nat} (h : n < 65536) :
    ∀ c ∈ renderHextet n, isHexDigitChar c = true := by
  unfold renderHextet
  split_ifs with h1 h2 h3 <;> intro c hc <;>
    simp only [List.mem_cons, List.not_mem_nil, or_false] at hc
  · rw [hc]; exact (hexChar_spec n h1).1
  · rcases hc with hc | hc <;> rw [hc]
    · exact (hexChar_spec _ (by omega)).1
    · exact (hexChar_spec _ (by omega)).1
  · rcases hc with hc | hc | hc <;> rw [hc]
    · exact (hexChar_spec _ (by omega)).1
    · exact (hexChar_spec _ (by omega)).1
    · exact (hexChar_spec _ (by omega)).1
  · rcases hc with hc | hc | hc | hc <;> rw [hc]
    · exact (hexChar_spec _ (by omega)).1
    · exact (hexChar_spec _ (by omega)).1
    · exact (hexChar_spec _ (by omega)).1
    · exact (hexChar_spec _ (by omega)).1

theorem renderOctet_ne_nil (n : Nat) : renderOctet n ≠ [] := by
  unfold renderOctet
  split_ifs <;> simp

theorem renderHextet_ne_nil (n : Nat) : renderHextet n ≠ [] := by
  unfold renderHextet
  split_ifs <;> simp

theorem parseOctet_renderOctet {n : Nat} (h : n ≤ 255) :
    parseOctet (renderOctet n) = some n := by
  unfold renderOctet
  split_ifs with h1 h2
  · have hd := decChar_spec n h1
    have hv : decValue [decChar n] = n := by
      simp [decValue, hd.2]
    unfold parseOctet
    rw [if_neg (by simp), if_neg (by simp [hd.1]), if_neg (by simp),
      if_neg ?hlead, if_neg (by omega), hv]
    case hlead =>
      rintro ⟨hne, hz⟩
      by_cases h0 : n = 0
      · exact hne (by rw [h0]; rfl)
      · have := decChar_ne_zero n (by omega) h1
        simp only [List.headD_cons] at hz
        exact this hz
  · have hd1 := decChar_spec (n / 10) (by omega)
    have hd2 := decChar_spec (n % 10) (by omega)
    have hv : decValue [decChar (n / 10), decChar (n % 10)] = n := by
      simp [decValue, hd1.2, hd2.2]
      omega
    unfold parseOctet
    rw [if_neg (by simp), if_neg (by simp [hd1.1, hd2.1]), if_neg (by simp),
      if_neg ?hlead2, if_neg (by omega), hv]
    case hlead2 =>
      rintro ⟨_, hz⟩
      have := decChar_ne_zero (n / 10) (by omega) (by omega)
      simp only [List.headD_cons] at hz
      exact this hz
  · have hd1 := decChar_spec (n / 100) (by omega)
    have hd2 := decChar_spec (n / 10 % 10) (by omega)
    have hd3 := decChar_spec (n % 10) (by omega)
    have hv : decValue [decChar (n / 100), decChar (n / 10 % 10), decChar (n % 10)] = n := by
      simp [decValue, hd1.2, hd2.2, hd3.2]
      omega
    unfold parseOctet
    rw [if_neg (by simp), if_neg (by simp [hd1.1, hd2.1, hd3.1]),
      if_neg (by simp), if_neg ?hlead3, if_neg (by omega), hv]
    case hlead3 =>
      rintro ⟨_, hz⟩
      have := decChar_ne_zero (n / 100) (by omega) (by omega)
      simp only [List.headD_cons] at hz
      exact this hz

theorem parseHextet_renderHextet {n : Nat} (h : n < 65536) :
    parseHextet (renderHextet n) = some n := by
  unfold renderHextet
  split_ifs with h1 h2 h3
  · have hd := hexChar_spec n h1
    unfold parseHextet
    rw [if_neg (by simp), if_neg (by simp [hd.1]), if_neg (by simp)]
    simp [hexValue, hd.2]
  · have hd1 := hexChar_spec (n / 16) (by omega)
    have hd2 := hexChar_spec (n % 16) (by omega)
    unfold parseHextet
    rw [if_neg (by simp), if_neg (by simp [hd1.1, hd2.1]), if_neg (by simp)]
    simp [hexValue, hd1.2, hd2.2]
    omega
  · have hd1 := hexChar_spec (n / 256) (by omega)
    have hd2 := hexChar_spec (n / 16 % 16) (by omega)
    have hd3 := hexChar_spec (n % 16) (by omega)
    unfold parseHextet
    rw [if_neg (by simp), if_neg (by simp [hd1.1, hd2.1, hd3.1]),
      if_neg (by simp)]
    simp [hexValue, hd1.2, hd2.2, hd3.2]
    omega
  · have hd1 := hexChar_spec (n / 4096) (by omega)
    have hd2 := hexChar_spec (n / 256 % 16) (by omega)
    have hd3 := hexChar_spec (n / 16 % 16) (by omega)
    have hd4 := hexChar_spec (n % 16) (by omega)
    unfold parseHextet
    rw [if_neg (by simp), if_neg (by simp [hd1.1, hd2.1, hd3.1, hd4.1]),
      if_neg (by simp)]
    simp [hexValue, hd1.2, hd2.2, hd3.2, hd4.2]
    omega

/-! ### IPv4 round trip and validity -/

theorem parseOctet_le {p : PyStr} {o : Nat} (h : parseOctet p = some o) :
    o ≤ 255 := by
  unfold parseOctet at h
  split_ifs at h with h1 h2 h3 h4 h5
  have := Option.some.inj h
  omega

theorem parseIPv4_renderIPv4 {os : List Nat} (hlen : os.length = 4)
    (hval : ∀ o ∈ os, o ≤ 255) : parseIPv4 (renderIPv4 os) = some os := by
  unfold parseIPv4 renderIPv4
  have hnodot : ∀ p ∈ os.map renderOctet, '.' ∉ p := by
    intro p hp
    obtain ⟨o, ho, rfl⟩ := List.mem_map.mp hp
    intro hdot
    have := renderOctet_digits (hval o ho) '.' hdot
    exact absurd this (by decide)
  have hne : os.map renderOctet ≠ [] := by
    intro he
    have := congrArg List.length he
    simp [hlen] at this
  rw [splitOnChar_joinSep hne hnodot]
  rw [if_pos (by simp [hlen]), List.map_map]
  have := seqOption_map_some (fun o => parseOctet (renderOctet o)) id os
    (fun o ho => by simpa using parseOctet_renderOctet (hval o ho))
  simpa using this

theorem parseIPv4_valid {l : PyStr} {os : List Nat}
    (h : parseIPv4 l = some os) : os.length = 4 ∧ ∀ o ∈ os, o ≤ 255 := by
  simp only [parseIPv4] at h
  split_ifs at h with hlen
  constructor
  · rw [seqOption_length h, List.length_map]; exact hlen
  · intro o ho
    have := seqOption_mem h o ho
    obtain ⟨p, _, hp⟩ := List.mem_map.mp this
    exact parseOctet_le hp

/-! ### hexValue bounds and IPv6 validity -/

theorem hexFold_lt {l : PyStr} (h : ∀ c ∈ l, isHexDigitChar c = true) :
    ∀ a : Nat, List.foldl (fun a c => a * 16 + hexCharVal c) a l <
      (a + 1) * 16 ^ l.length := by
  induction l with
  | nil => intro a; simp
  | cons c t ih =>
    intro a
    have hc : hexCharVal c < 16 := hexCharVal_lt c
    have ht := ih (fun x hx => h x (List.mem_cons_of_mem _ hx))
      (a * 16 + hexCharVal c)
    calc List.foldl (fun a c => a * 16 + hexCharVal c) a (c :: t)
        = List.foldl (fun a c => a * 16 + hexCharVal c) (a * 16 + hexCharVal c) t := rfl
      _ < (a * 16 + hexCharVal c + 1) * 16 ^ t.length := ht
      _ ≤ ((a + 1) * 16) * 16 ^ t.length := by
          have hstep : a * 16 + hexCharVal c + 1 ≤ (a + 1) * 16 := by omega
          exact Nat.mul_le_mul_right _ hstep
      _ = (a + 1) * 16 ^ (c :: t).length := by
          rw [List.length_cons, pow_succ]
          ring

theorem parseHextet_lt {p : PyStr} {v : Nat} (h : parseHextet p = some v) :
    v < 65536 := by
  unfold parseHextet at h
  split_ifs at h with h1 h2 h3
  have hv := Option.some.inj h
  have hhex : ∀ c ∈ p, isHexDigitChar c = true := by
    intro c hc
    simp only [not_not] at h2
    exact List.all_eq_true.mp h2 c hc
  have := hexFold_lt hhex 0
  have hle : (16 : Nat) ^ p.length ≤ 16 ^ 4 := Nat.pow_le_pow_right (by omega) (by omega)
  rw [← hv]
  unfold hexValue
  calc List.foldl (fun a c => a * 16 + hexCharVal c) 0 p < (0 + 1) * 16 ^ p.length := this
    _ ≤ 16 ^ 4 := by simpa using hle
    _ = 65536 := by norm_num

/-! ### The zero-run found by bestRun -/

/-- Entry of a list of naturals at an index, with an out-of-range default
that is never zero. -/
def nthZero (l : List Nat) (i : Nat) : Nat := (l.drop i).headD 1

theorem drop_cons_self {l : List Nat} {i : Nat} (h : i < l.length) :
    l.drop i = nthZero l i :: l.drop (i + 1) := by
  cases hd : l.drop i with
  | nil =>
    rw [List.drop_eq_nil_iff_le] at hd
    omega
  | cons v rest =>
    have h1 : nthZero l i = v := by unfold nthZero; rw [hd]; rfl
    have h2 : l.drop (i + 1) = rest := by
      have hdd := List.drop_drop 1 i l
      rw [hd] at hdd
      simpa using hdd.symm
    rw [h1, h2]

theorem drop_eq_replicate_append {l : List Nat} :
    ∀ (bl bs : Nat), bs + bl ≤ l.length →
      (∀ j, j < bl → nthZero l (bs + j) = 0) →
      l.drop bs = List.replicate bl 0 ++ l.drop (bs + bl)
  | 0, bs, _, _ => by simp
  | n + 1, bs, hle, hz => by
    have hbs : bs < l.length := by omega
    have hhead : nthZero l bs = 0 := by simpa using hz 0 (by omega)
    rw [drop_cons_self hbs, hhead,
      drop_eq_replicate_append n (bs + 1) (by omega)
        (fun j hj => by
          have := hz (j + 1) (by omega)
          rwa [show bs + (j + 1) = bs + 1 + j by omega] at this)]
    rw [List.replicate_succ]
    simp only [List.cons_append]
    rw [show bs + 1 + n = bs + (n + 1) by omega]

theorem take_replicate_drop {l : List Nat} {bs bl : Nat} (h : bs + bl ≤ l.length)
    (hz : ∀ j, j < bl → nthZero l (bs + j) = 0) :
    l.take bs ++ (List.replicate bl 0 ++ l.drop (bs + bl)) = l := by
  conv_rhs => rw [← List.take_append_drop bs l]
  rw [drop_eq_replicate_append bl bs h hz]

theorem bestRunAux_cons (v : Nat) (vs : List Nat) (i bs bl cl : Nat) :
    bestRunAux (v :: vs) i bs bl cl =
      if v = 0 then
        if bl < cl + 1 then bestRunAux vs (i + 1) (i - cl) (cl + 1) (cl + 1)
        else bestRunAux vs (i + 1) bs bl (cl + 1)
      else bestRunAux vs (i + 1) bs bl 0 := rfl

theorem bestRunAux_spec (l : List Nat) :
    ∀ (vs : List Nat) (i bs bl cl : Nat),
      vs = l.drop i → i ≤ l.length →
      cl ≤ i → (∀ j, j < cl → nthZero l (i - cl + j) = 0) →
      bs + bl ≤ i → (∀ j, j < bl → nthZero l (bs + j) = 0) →
      (bestRunAux vs i bs bl cl).1 + (bestRunAux vs i bs bl cl).2 ≤ l.length ∧
        ∀ j, j < (bestRunAux vs i bs bl cl).2 →
          nthZero l ((bestRunAux vs i bs bl cl).1 + j) = 0 := by
  intro vs
  induction vs with
  | nil =>
    intro i bs bl cl hdrop hil hcl hrun hbest hz
    exact ⟨by unfold bestRunAux; omega, fun j hj => hz j hj⟩
  | cons v vs' ih =>
    intro i bs bl cl hdrop hil hcl hrun hbest hz
    have hilt : i < l.length := by
      by_contra hge
      have : l.drop i = [] := List.drop_eq_nil_iff_le.mpr (by omega)
      rw [this] at hdrop
      exact List.noConfusion hdrop
    have hv : nthZero l i = v := by
      unfold nthZero; rw [← hdrop]; rfl
    have hdrop' : vs' = l.drop (i + 1) := by
      have := drop_cons_self hilt
      rw [← hdrop, hv] at this
      exact (List.cons.inj this).2
    by_cases h0 : v = 0
    · have hrun' : ∀ j, j < cl + 1 → nthZero l (i + 1 - (cl + 1) + j) = 0 := by
        intro j hj
        rw [show i + 1 - (cl + 1) + j = i - cl + j by omega]
        by_cases hjc : j < cl
        · exact hrun j hjc
        · have : j = cl := by omega
          rw [this, show i - cl + cl = i by omega, hv, h0]
      by_cases hbl : bl < cl + 1
      · rw [bestRunAux_cons, if_pos h0, if_pos hbl]
        exact ih (i + 1) (i - cl) (cl + 1) (cl + 1) hdrop' (by omega)
          (by omega)
          (fun j hj => by
            have := hrun' j hj
            rwa [show i + 1 - (cl + 1) + j = i - cl + j by omega] at this ⊢)
          (by omega)
          (fun j hj => by
            have := hrun' j hj
            rwa [show i + 1 - (cl + 1) + j = i - cl + j by omega] at this)
      · rw [bestRunAux_cons, if_pos h0, if_neg hbl]
        exact ih (i + 1) bs bl (cl + 1) hdrop' (by omega) (by omega)
          (fun j hj => by
            have := hrun' j hj
            rwa [show i + 1 - (cl + 1) + j = i - cl + j by omega] at this ⊢)
          (by omega) hz
    · rw [bestRunAux_cons, if_neg h0]
      exact ih (i + 1) bs bl 0 hdrop' (by omega) (by omega)
        (fun j hj => by omega) (by omega) hz

theorem bestRun_spec (l : List Nat) :
    (bestRun l).1 + (bestRun l).2 ≤ l.length ∧
      ∀ j, j < (bestRun l).2 → nthZero l ((bestRun l).1 + j) = 0 := by
  unfold bestRun
  exact bestRunAux_spec l l 0 0 0 0 rfl (by omega) (by omega)
    (by omega) (by omega) (by omega)

/-! ### Evaluating parseIPv6Parts on rendered part lists -/

theorem isEmpty_false_of_ne {p : PyStr} (h : p ≠ []) : p.isEmpty = false := by
  cases hp : p.isEmpty with
  | false => rfl
  | true => exact absurd (List.isEmpty_iff.mp hp) h

theorem countP_isEmpty_zero {X : List PyStr} (h : ∀ p ∈ X, p ≠ []) :
    X.countP (·.isEmpty) = 0 :=
  List.countP_eq_zero.mpr fun p hp => by
    simp only [isEmpty_false_of_ne (h p hp)]
    exact Bool.false_ne_true

theorem findIdx_append_cons {p : PyStr → Bool} {X : List PyStr} {y : PyStr}
    (Z : List PyStr) (hX : ∀ x ∈ X, p x = false) (hy : p y = true) :
    List.findIdx p (X ++ y :: Z) = X.length := by
  induction X with
  | nil => simp [List.findIdx_cons, hy]
  | cons a t ih =>
    rw [List.cons_append, List.findIdx_cons, hX a (List.mem_cons_self _ _)]
    simp only [cond_false, List.length_cons]
    rw [ih (fun x hx => hX x (List.mem_cons_of_mem _ hx))]

/-- Evaluation of the parts analysis when the empty `::`-marker sits strictly
between two runs of nonempty groups. -/
theorem parseIPv6Parts_mid {Am Bm : List PyStr}
    (hA : ∀ p ∈ Am, p ≠ []) (hB : ∀ p ∈ Bm, p ≠ [])
    (hAne : Am ≠ []) (hBne : Bm ≠ [])
    (hab : Am.length + Bm.length ≤ 7) :
    parseIPv6Parts (Am ++ [] :: Bm) =
      (seqOption (Am.map parseHextet)).bind fun hv =>
        (seqOption (Bm.map parseHextet)).map fun lv =>
          hv ++ List.replicate (8 - (Am.length + Bm.length)) 0 ++ lv := by
  obtain ⟨a₀, Am', rfl⟩ : ∃ x t, Am = x :: t := by
    cases Am with
    | nil => exact absurd rfl hAne
    | cons x t => exact ⟨x, t, rfl⟩
  rcases List.eq_nil_or_concat Bm with rfl | ⟨Bm', bL, rfl⟩
  · exact absurd rfl hBne
  rw [List.concat_eq_append] at *
  have hBm' : ∀ q ∈ Bm', q ≠ [] := fun q hq =>
    hB q (List.mem_append_left _ hq)
  have hbL : bL ≠ [] := hB bL (List.mem_append_right _ (List.mem_singleton.mpr rfl))
  have ha₀ : a₀ ≠ [] := hA a₀ (List.mem_cons_self _ _)
  have hAm' : ∀ q ∈ Am', q ≠ [] := fun q hq => hA q (List.mem_cons_of_mem _ hq)
  set parts : List PyStr := (a₀ :: Am') ++ [] :: (Bm' ++ [bL]) with hparts
  have hplen : parts.length = Am'.length + Bm'.length + 3 := by
    simp [hparts]; omega
  have hdrop1 : parts.drop 1 = Am' ++ [] :: (Bm' ++ [bL]) := by
    rw [hparts, List.cons_append, List.drop_succ_cons, List.drop_zero]
  have hmids : (parts.drop 1).dropLast = Am' ++ [] :: Bm' := by
    rw [hdrop1]
    rw [show Am' ++ [] :: (Bm' ++ [bL]) = (Am' ++ [] :: Bm') ++ [bL] by
      simp]
    rw [List.dropLast_concat]
  have hcount : ((parts.drop 1).dropLast).countP (·.isEmpty) = 1 := by
    rw [hmids, List.countP_append, List.countP_cons,
      countP_isEmpty_zero hAm', countP_isEmpty_zero hBm']
    simp
  have hfind : ((parts.drop 1).dropLast).findIdx (·.isEmpty) = Am'.length := by
    rw [hmids]
    exact findIdx_append_cons _ (fun x hx => isEmpty_false_of_ne (hAm' x hx)) rfl
  have hhead : parts.headD [' '] = a₀ := by rw [hparts]; rfl
  have hlast : parts.getLastD [' '] = bL := by
    rw [hparts, show (a₀ :: Am') ++ [] :: (Bm' ++ [bL]) =
      ((a₀ :: Am') ++ [] :: Bm') ++ [bL] by simp]
    exact List.getLastD_concat _ _ _
  have htake : parts.take (a₀ :: Am').length = a₀ :: Am' := by
    rw [hparts]; exact List.take_left _ _
  have hdropA : parts.drop (a₀ :: Am').length = [] :: (Bm' ++ [bL]) := by
    rw [hparts]; exact List.drop_left _ _
  have hdropB : parts.drop ((a₀ :: Am').length + 1) = Bm' ++ [bL] := by
    have := List.drop_drop 1 (a₀ :: Am').length parts
    rw [hdropA] at this
    rw [← this, List.drop_succ_cons, List.drop_zero]
  have hab' : Am'.length + Bm'.length ≤ 5 := by
    simp only [List.length_cons, List.length_append, List.length_singleton] at hab
    omega
  simp only [parseIPv6Parts, ipv6OneSkip, ipv6Assemble]
  rw [hcount, hfind, hhead, hlast]
  have c1 : ¬(parts.length < 3) := by rw [hplen]; omega
  have c2 : ¬(9 < parts.length) := by rw [hplen]; omega
  rw [if_neg c1, if_neg c2, if_neg (by omega : ¬(2 ≤ (1 : Nat))),
    if_pos (rfl : (1 : Nat) = 1)]
  rw [isEmpty_false_of_ne ha₀, isEmpty_false_of_ne hbL]
  rw [if_neg (by simp : ¬(false = true ∧ 1 + Am'.length ≠ 1))]
  have clo : parts.length - (1 + Am'.length) - 1 = Bm'.length + 1 := by
    rw [hplen]; omega
  rw [clo]
  rw [if_neg (by simp : ¬(false = true ∧ Bm'.length + 1 ≠ 1))]
  simp only [Bool.false_eq_true, if_false]
  rw [if_neg (by omega : ¬(8 ≤ 1 + Am'.length + (Bm'.length + 1)))]
  have e1 : (1 : Nat) + Am'.length = (a₀ :: Am').length := by
    simp [Nat.add_comm]
  rw [e1, htake]
  have e2 : parts.length - (Bm'.length + 1) = (a₀ :: Am').length + 1 := by
    rw [hplen]; simp; omega
  rw [e2, hdropB]
  have e3 : 8 - ((a₀ :: Am').length + (Bm'.length + 1)) =
      8 - ((a₀ :: Am').length + (Bm' ++ [bL]).length) := by
    simp
  rw [e3]
  rcases seqOption ((a₀ :: Am').map parseHextet) with _ | hv <;>
    rcases seqOption ((Bm' ++ [bL]).map parseHextet) with _ | lv <;> rfl

/-- Evaluation of the parts analysis when the `::`-marker opens the address:
the leading colon pair contributes two empty parts. -/
theorem parseIPv6Parts_leading {Bm : List PyStr}
    (hB : ∀ p ∈ Bm, p ≠ []) (hBne : Bm ≠ []) (hb6 : Bm.length ≤ 6) :
    parseIPv6Parts ([] :: [] :: Bm) =
      (seqOption (Bm.map parseHextet)).map fun lv =>
        List.replicate (8 - Bm.length) 0 ++ lv := by
  rcases List.eq_nil_or_concat Bm with rfl | ⟨Bm', bL, rfl⟩
  · exact absurd rfl hBne
  rw [List.concat_eq_append] at *
  have hBm' : ∀ q ∈ Bm', q ≠ [] := fun q hq =>
    hB q (List.mem_append_left _ hq)
  have hbL : bL ≠ [] := hB bL (List.mem_append_right _ (List.mem_singleton.mpr rfl))
  have hb6' : Bm'.length ≤ 5 := by
    simp only [List.length_append, List.length_singleton] at hb6
    omega
  set parts : List PyStr := [] :: [] :: (Bm' ++ [bL]) with hparts
  have hplen : parts.length = Bm'.length + 3 := by simp [hparts]
  have hmids : (parts.drop 1).dropLast = [] :: Bm' := by
    rw [hparts, List.drop_succ_cons, List.drop_zero,
      show ([] : PyStr) :: (Bm' ++ [bL]) = (([] : PyStr) :: Bm') ++ [bL] by simp,
      List.dropLast_concat]
  have hcount : ((parts.drop 1).dropLast).countP (·.isEmpty) = 1 := by
    rw [hmids, List.countP_cons, countP_isEmpty_zero hBm']
    simp
  have hfind : ((parts.drop 1).dropLast).findIdx (·.isEmpty) = 0 := by
    rw [hmids, List.findIdx_cons]
    rfl
  have hhead : parts.headD [' '] = [] := by rw [hparts]; rfl
  have hlast : parts.getLastD [' '] = bL := by
    rw [hparts, show ([] : PyStr) :: [] :: (Bm' ++ [bL]) =
      (([] : PyStr) :: [] :: Bm') ++ [bL] by simp]
    exact List.getLastD_concat _ _ _
  simp only [parseIPv6Parts, ipv6OneSkip, ipv6Assemble]
  rw [hcount, hfind, hhead, hlast]
  have c1 : ¬(parts.length < 3) := by rw [hplen]; omega
  have c2 : ¬(9 < parts.length) := by rw [hplen]; omega
  rw [if_neg c1, if_neg c2, if_neg (by omega : ¬(2 ≤ (1 : Nat))),
    if_pos (rfl : (1 : Nat) = 1)]
  rw [show List.isEmpty ([] : PyStr) = true from rfl,
    isEmpty_false_of_ne hbL]
  rw [if_neg (by simp : ¬(true = true ∧ 1 + 0 ≠ 1))]
  have clo : parts.length - (1 + 0) - 1 = Bm'.length + 1 := by
    rw [hplen]; omega
  rw [clo]
  rw [if_neg (by simp : ¬(false = true ∧ Bm'.length + 1 ≠ 1))]
  simp only [Bool.false_eq_true, if_false, eq_self_iff_true, if_true]
  rw [if_neg (by omega : ¬(8 ≤ 1 + 0 - 1 + (Bm'.length + 1)))]
  have e1 : (1 : Nat) + 0 - 1 = 0 := rfl
  rw [e1, List.take_zero]
  have e2 : parts.length - (Bm'.length + 1) = 2 := by rw [hplen]; omega
  rw [e2]
  have e4 : parts.drop 2 = Bm' ++ [bL] := by
    rw [hparts, List.drop_succ_cons, List.drop_succ_cons, List.drop_zero]
  rw [e4]
  cases hsq : seqOption ((Bm' ++ [bL]).map parseHextet) with
  | none => rfl
  | some lv =>
    show some ([] ++ List.replicate (8 - (0 + (Bm'.length + 1))) 0 ++ lv) = _
    simp only [Option.map_some', List.nil_append, List.length_append,
      List.length_singleton, Nat.zero_add]

/-- Evaluation of the parts analysis when the `::`-marker closes the
address: the trailing colon pair contributes two empty parts. -/
theorem parseIPv6Parts_trailing {Am : List PyStr}
    (hA : ∀ p ∈ Am, p ≠ []) (hAne : Am ≠ []) (ha6 : Am.length ≤ 6) :
    parseIPv6Parts (Am ++ [[], []]) =
      (seqOption (Am.map parseHextet)).map fun hv =>
        hv ++ List.replicate (8 - Am.length) 0 := by
  obtain ⟨a₀, Am', rfl⟩ : ∃ x t, Am = x :: t := by
    cases Am with
    | nil => exact absurd rfl hAne
    | cons x t => exact ⟨x, t, rfl⟩
  have ha₀ : a₀ ≠ [] := hA a₀ (List.mem_cons_self _ _)
  have hAm' : ∀ q ∈ Am', q ≠ [] := fun q hq => hA q (List.mem_cons_of_mem _ hq)
  have ha6' : Am'.length ≤ 5 := by
    simp only [List.length_cons] at ha6
    omega
  set parts : List PyStr := (a₀ :: Am') ++ [[], []] with hparts
  have hplen : parts.length = Am'.length + 3 := by simp [hparts]
  have hdrop1 : parts.drop 1 = Am' ++ [[], []] := by
    rw [hparts, List.cons_append, List.drop_succ_cons, List.drop_zero]
  have hmids : (parts.drop 1).dropLast = Am' ++ [[]] := by
    rw [hdrop1, show Am' ++ [([] : PyStr), []] = (Am' ++ [([] : PyStr)]) ++ [[]] by simp,
      List.dropLast_concat]
  have hcount : ((parts.drop 1).dropLast).countP (·.isEmpty) = 1 := by
    rw [hmids, List.countP_append, countP_isEmpty_zero hAm']
    rfl
  have hfind : ((parts.drop 1).dropLast).findIdx (·.isEmpty) = Am'.length := by
    rw [hmids]
    exact findIdx_append_cons _ (fun x hx => isEmpty_false_of_ne (hAm' x hx)) rfl
  have hhead : parts.headD [' '] = a₀ := by rw [hparts]; rfl
  have hlast : parts.getLastD [' '] = [] := by
    rw [hparts, show (a₀ :: Am') ++ [([] : PyStr), []] =
      ((a₀ :: Am') ++ [([] : PyStr)]) ++ [[]] by simp]
    exact List.getLastD_concat _ _ _
  have htake : parts.take (a₀ :: Am').length = a₀ :: Am' := by
    rw [hparts]; exact List.take_left _ _
  simp only [parseIPv6Parts, ipv6OneSkip, ipv6Assemble]
  rw [hcount, hfind, hhead, hlast]
  have c1 : ¬(parts.length < 3) := by rw [hplen]; omega
  have c2 : ¬(9 < parts.length) := by rw [hplen]; omega
  rw [if_neg c1, if_neg c2, if_neg (by omega : ¬(2 ≤ (1 : Nat))),
    if_pos (rfl : (1 : Nat) = 1)]
  rw [isEmpty_false_of_ne ha₀, show List.isEmpty ([] : PyStr) = true from rfl]
  rw [if_neg (by simp : ¬(false = true ∧ 1 + Am'.length ≠ 1))]
  have clo : parts.length - (1 + Am'.length) - 1 = 1 := by
    rw [hplen]; omega
  rw [clo]
  rw [if_neg (by simp : ¬(true = true ∧ (1 : Nat) ≠ 1))]
  simp only [Bool.false_eq_true, if_false, eq_self_iff_true, if_true]
  rw [if_neg (by omega : ¬(8 ≤ 1 + Am'.length + (1 - 1)))]
  have e1 : (1 : Nat) + Am'.length = (a₀ :: Am').length := by
    simp [Nat.add_comm]
  rw [e1, htake]
  have e2 : parts.length - (1 - 1) = parts.length := by omega
  rw [e2, List.drop_length]
  cases hsq : seqOption ((a₀ :: Am').map parseHextet) with
  | none => rfl
  | some hv =>
    show some (hv ++ List.replicate (8 - ((a₀ :: Am').length + (1 - 1))) 0 ++ []) = _
    simp only [Option.map_some']
    norm_num

/-! ### The IPv6 canonical-form round trip -/

theorem mapRender_ne {X : List Nat} : ∀ p ∈ X.map renderHextet, p ≠ [] := by
  intro p hp
  obtain ⟨v, _, rfl⟩ := List.mem_map.mp hp
  exact renderHextet_ne_nil v

theorem mapRender_no_colon {X : List Nat} (hX : ∀ v ∈ X, v < 65536) :
    ∀ p ∈ X.map renderHextet, ':' ∉ p := by
  intro p hp hc
  obtain ⟨v, hv, rfl⟩ := List.mem_map.mp hp
  exact absurd (renderHextet_hex (hX v hv) ':' hc) (by decide)

theorem seqOption_render {X : List Nat} (hX : ∀ v ∈ X, v < 65536) :
    seqOption ((X.map renderHextet).map parseHextet) = some X := by
  rw [List.map_map]
  have := seqOption_map_some (fun v => parseHextet (renderHextet v)) id X
    (fun v hv => by simpa using parseHextet_renderHextet (hX v hv))
  simpa using this

theorem parseIPv6_renderIPv6 {hs : List Nat} (hlen : hs.length = 8)
    (hval : ∀ v ∈ hs, v < 65536) : parseIPv6 (renderIPv6 hs) = some hs := by
  have hspec := bestRun_spec hs
  rcases hbr : bestRun hs with ⟨bs, bl⟩
  rw [hbr] at hspec
  obtain ⟨hble, hz⟩ := hspec
  rw [hlen] at hble
  unfold parseIPv6
  simp only [renderIPv6]
  rw [hbr]
  dsimp only
  have hrec : hs.take bs ++ (List.replicate bl 0 ++ hs.drop (bs + bl)) = hs :=
    take_replicate_drop (by omega) hz
  by_cases hbl1 : bl ≤ 1
  · rw [if_pos hbl1]
    have hnc := mapRender_no_colon hval
    have hne : hs.map renderHextet ≠ [] := by
      intro he
      have := congrArg List.length he
      simp [hlen] at this
    rw [splitOnChar_joinSep hne hnc]
    have hplen8 : (hs.map renderHextet).length = 8 := by simp [hlen]
    have hcount0 :
        (((hs.map renderHextet).drop 1).dropLast).countP (·.isEmpty) = 0 :=
      countP_isEmpty_zero fun p hp =>
        mapRender_ne p ((List.drop_subset _ _) ((List.dropLast_sublist _).subset hp))
    simp only [parseIPv6Parts]
    rw [hcount0, hplen8]
    rw [if_neg (by omega : ¬((8 : Nat) < 3)), if_neg (by omega : ¬(9 < (8 : Nat))),
      if_neg (by omega : ¬(2 ≤ (0 : Nat))), if_neg (by omega : ¬((0 : Nat) = 1)),
      if_neg (by omega : ¬((8 : Nat) ≠ 8))]
    exact seqOption_render hval
  · rw [if_neg hbl1, hlen]
    have hvtake : ∀ v ∈ hs.take bs, v < 65536 :=
      fun v hv => hval v (List.take_subset _ _ hv)
    have hvdrop : ∀ v ∈ hs.drop (bs + bl), v < 65536 :=
      fun v hv => hval v (List.drop_subset _ _ hv)
    have hltake : (hs.take bs).length = bs := by
      rw [List.length_take, hlen]; omega
    have hldrop : (hs.drop (bs + bl)).length = 8 - (bs + bl) := by
      rw [List.length_drop, hlen]
    by_cases hb0 : bs = 0 <;> by_cases hbe : bs + bl = 8
    · -- whole address is zero
      rw [if_pos hb0, if_pos hbe]
      subst hb0
      have hbl8 : bl = 8 := by omega
      subst hbl8
      have heval : parseIPv6Parts (splitOnChar ':'
          (joinSep ':' ([[]] ++ [[]] ++ [[]]))) = some (List.replicate 8 0) := by rfl
      rw [heval]
      have hdr : hs.drop 8 = [] := List.drop_eq_nil_iff_le.mpr (by omega)
      rw [hdr] at hrec
      simp only [List.take_zero, List.nil_append, List.append_nil] at hrec
      rw [hrec]
    · -- leading compression
      rw [if_pos hb0, if_neg hbe]
      subst hb0
      simp only [Nat.zero_add, List.take_zero] at hrec hvdrop hldrop hbe ⊢
      have hshape : ([([] : PyStr)] ++ [[]] ++ (hs.drop bl).map renderHextet) =
          [] :: [] :: (hs.drop bl).map renderHextet := rfl
      rw [hshape]
      have hnc : ∀ p ∈ ([] :: [] :: (hs.drop bl).map renderHextet : List PyStr),
          ':' ∉ p := by
        intro p hp
        rcases List.mem_cons.mp hp with rfl | hp
        · simp
        rcases List.mem_cons.mp hp with rfl | hp
        · simp
        · exact mapRender_no_colon hvdrop p hp
      rw [splitOnChar_joinSep (by simp) hnc]
      have hBne : (hs.drop bl).map renderHextet ≠ [] := by
        intro he
        have := congrArg List.length he
        simp only [List.length_map, List.length_nil] at this
        rw [hldrop] at this
        omega
      have hb6 : ((hs.drop bl).map renderHextet).length ≤ 6 := by
        simp only [List.length_map]
        rw [hldrop]
        omega
      rw [parseIPv6Parts_leading mapRender_ne hBne hb6]
      rw [seqOption_render hvdrop]
      simp only [Option.map_some']
      have hlB : ((hs.drop bl).map renderHextet).length = 8 - bl := by
        simp only [List.length_map]; rw [hldrop]
      rw [hlB]
      have h8 : 8 - (8 - bl) = bl := by omega
      rw [h8]
      simp only [List.nil_append] at hrec
      rw [hrec]
    · -- trailing compression
      rw [if_neg hb0, if_pos hbe]
      have hshape : ((hs.take bs).map renderHextet ++ [[]] ++ [[]]) =
          (hs.take bs).map renderHextet ++ [[], []] := by
        rw [List.append_assoc]; rfl
      rw [hshape]
      have hnc : ∀ p ∈ (hs.take bs).map renderHextet ++ [([] : PyStr), []],
          ':' ∉ p := by
        intro p hp
        rcases List.mem_append.mp hp with hp | hp
        · exact mapRender_no_colon hvtake p hp
        · rcases List.mem_cons.mp hp with rfl | hp
          · simp
          rcases List.mem_cons.mp hp with rfl | hp
          · simp
          · simp at hp
      rw [splitOnChar_joinSep (by simp) hnc]
      have hAne : (hs.take bs).map renderHextet ≠ [] := by
        intro he
        have := congrArg List.length he
        simp only [List.length_map, List.length_nil] at this
        rw [hltake] at this
        omega
      have ha6 : ((hs.take bs).map renderHextet).length ≤ 6 := by
        simp only [List.length_map]
        rw [hltake]
        omega
      rw [parseIPv6Parts_trailing mapRender_ne hAne ha6]
      rw [seqOption_render hvtake]
      simp only [Option.map_some']
      have hlA : ((hs.take bs).map renderHextet).length = bs := by
        simp only [List.length_map]; rw [hltake]
      rw [hlA]
      have h8 : 8 - bs = bl := by omega
      rw [h8]
      have hdr : hs.drop (bs + bl) = [] := List.drop_eq_nil_iff_le.mpr (by omega)
      rw [hdr] at hrec
      simp only [List.append_nil] at hrec
      rw [hrec]
    · -- compression strictly inside
      rw [if_neg hb0, if_neg hbe]
      have hshape : ((hs.take bs).map renderHextet ++ [[]] ++
          (hs.drop (bs + bl)).map renderHextet) =
          (hs.take bs).map renderHextet ++ [] :: (hs.drop (bs + bl)).map renderHextet := by
        rw [List.append_assoc]; rfl
      rw [hshape]
      have hnc : ∀ p ∈ (hs.take bs).map renderHextet ++
          [] :: (hs.drop (bs + bl)).map renderHextet, ':' ∉ p := by
        intro p hp
        rcases List.mem_append.mp hp with hp | hp
        · exact mapRender_no_colon hvtake p hp
        · rcases List.mem_cons.mp hp with rfl | hp
          · simp
          · exact mapRender_no_colon hvdrop p hp
      rw [splitOnChar_joinSep (by simp) hnc]
      have hAne : (hs.take bs).map renderHextet ≠ [] := by
        intro he
        have := congrArg List.length he
        simp only [List.length_map, List.length_nil] at this
        rw [hltake] at this
        omega
      have hBne : (hs.drop (bs + bl)).map renderHextet ≠ [] := by
        intro he
        have := congrArg List.length he
        simp only [List.length_map, List.length_nil] at this
        rw [hldrop] at this
        omega
      have hab : ((hs.take bs).map renderHextet).length +
          ((hs.drop (bs + bl)).map renderHextet).length ≤ 7 := by
        simp only [List.length_map]
        rw [hltake, hldrop]
        omega
      rw [parseIPv6Parts_mid mapRender_ne mapRender_ne hAne hBne hab]
      rw [seqOption_render hvtake, seqOption_render hvdrop]
      simp only [Option.some_bind, Option.map_some']
      have hlA : ((hs.take bs).map renderHextet).length = bs := by
        simp only [List.length_map]; rw [hltake]
      have hlB : ((hs.drop (bs + bl)).map renderHextet).length = 8 - (bs + bl) := by
        simp only [List.length_map]; rw [hldrop]
      rw [hlA, hlB]
      have h8 : 8 - (bs + (8 - (bs + bl))) = bl := by omega
      rw [h8]
      rw [← List.append_assoc] at hrec
      rw [hrec]

/-! ### Validity of parsed addresses, and failure lemmas -/

/-- The values an `ipaddress` object can actually hold: what `parseIP`
produces. -/
def ValidIp : IpAddr → Prop
  | .v4 os => os.length = 4 ∧ ∀ o ∈ os, o ≤ 255
  | .v6 hs => hs.length = 8 ∧ ∀ v ∈ hs, v < 65536

theorem parseHextet_of_mem_seq {parts : List PyStr} {xs : List Nat}
    (h : seqOption (parts.map parseHextet) = some xs) :
    ∀ v ∈ xs, v < 65536 := by
  intro v hv
  obtain ⟨p, _, hp⟩ := List.mem_map.mp (seqOption_mem h v hv)
  exact parseHextet_lt hp

theorem ipv6Assemble_valid {parts : List PyStr} {hi lo : Nat} {hs : List Nat}
    (hhile : hi ≤ parts.length) (hlole : lo ≤ parts.length)
    (h : ipv6Assemble parts hi lo = some hs) :
    hs.length = 8 ∧ ∀ v ∈ hs, v < 65536 := by
  simp only [ipv6Assemble] at h
  split_ifs at h with hlt
  cases hA : seqOption ((parts.take hi).map parseHextet) with
  | none => rw [hA] at h; exact absurd h (by simp)
  | some hv =>
    cases hB : seqOption ((parts.drop (parts.length - lo)).map parseHextet) with
    | none => rw [hA, hB] at h; exact absurd h (by simp)
    | some lv =>
      rw [hA, hB] at h
      have hhs := Option.some.inj h
      have hlhv : hv.length = hi := by
        rw [seqOption_length hA, List.length_map, List.length_take]
        omega
      have hllv : lv.length = lo := by
        rw [seqOption_length hB, List.length_map, List.length_drop]
        omega
      constructor
      · rw [← hhs]
        simp only [List.length_append, List.length_replicate]
        omega
      · intro v hv'
        rw [← hhs] at hv'
        rcases List.mem_append.mp hv' with hm | hm
        · rcases List.mem_append.mp hm with hm | hm
          · exact parseHextet_of_mem_seq hA v hm
          · rw [List.eq_of_mem_replicate hm]; omega
        · exact parseHextet_of_mem_seq hB v hm

theorem ipv6OneSkip_valid {parts : List PyStr} {si : Nat} {hs : List Nat}
    (hn : 3 ≤ parts.length) (hsi : si ≤ parts.length - 1)
    (h : ipv6OneSkip parts si = some hs) :
    hs.length = 8 ∧ ∀ v ∈ hs, v < 65536 := by
  simp only [ipv6OneSkip] at h
  split_ifs at h <;>
    exact ipv6Assemble_valid (by omega) (by omega) h

theorem parseIPv6Parts_valid {parts : List PyStr} {hs : List Nat}
    (h : parseIPv6Parts parts = some hs) :
    hs.length = 8 ∧ ∀ v ∈ hs, v < 65536 := by
  simp only [parseIPv6Parts] at h
  split_ifs at h with h1 h2 h3 h4 h5
  · -- one marker: bound the split index and defer to ipv6OneSkip_valid
    refine ipv6OneSkip_valid (by omega) ?_ h
    have hle := @List.findIdx_le_length _ (·.isEmpty) ((parts.drop 1).dropLast)
    have hlm : ((parts.drop 1).dropLast).length = parts.length - 2 := by
      rw [List.length_dropLast, List.length_drop]
      omega
    rw [hlm] at hle
    omega
  · -- plain eight-group form
    constructor
    · rw [seqOption_length h, List.length_map]
      omega
    · exact parseHextet_of_mem_seq h

theorem parseIPv6_valid {l : PyStr} {hs : List Nat}
    (h : parseIPv6 l = some hs) : hs.length = 8 ∧ ∀ v ∈ hs, v < 65536 :=
  parseIPv6Parts_valid h

theorem parseIP_valid {l : PyStr} {a : IpAddr} (h : parseIP l = some a) :
    ValidIp a := by
  unfold parseIP at h
  cases h4 : parseIPv4 l with
  | some os =>
    rw [h4] at h
    have := Option.some.inj h
    rw [← this]
    exact parseIPv4_valid h4
  | none =>
    rw [h4] at h
    cases h6 : parseIPv6 l with
    | some hs =>
      rw [h6] at h
      have := Option.some.inj h
      rw [← this]
      exact parseIPv6_valid h6
    | none => rw [h6] at h; exact absurd h (by simp)

theorem parseOctet_none_of_bad {p : PyStr} {c : Char} (hc : c ∈ p)
    (hnd : isDigitChar c = false) : parseOctet p = none := by
  have hne : p ≠ [] := by rintro rfl; simp at hc
  have hall : p.all isDigitChar = false := by
    cases ha : p.all isDigitChar with
    | false => rfl
    | true =>
      have := List.all_eq_true.mp ha c hc
      rw [hnd] at this
      exact absurd this (by simp)
  unfold parseOctet
  rw [if_neg hne, if_pos (by rw [hall]; simp)]

theorem parseIPv4_none_of_bad {l : PyStr} {c : Char} (hc : c ∈ l)
    (hnd : isDigitChar c = false) (hdot : c ≠ '.') : parseIPv4 l = none := by
  simp only [parseIPv4]
  obtain ⟨p, hp, hcp⟩ := exists_part_of_mem hc hdot
  split_ifs with hlen
  · exact seqOption_none parseOctet hp (parseOctet_none_of_bad hcp hnd)
  · rfl

theorem parseIPv4_none_of_no_dot {l : PyStr} (h : '.' ∉ l) :
    parseIPv4 l = none := by
  unfold parseIPv4
  rw [splitOnChar_of_not_mem h]
  rw [if_neg (by simp)]

theorem parseIPv6_none_of_no_colon {l : PyStr} (h : ':' ∉ l) :
    parseIPv6 l = none := by
  unfold parseIPv6
  rw [splitOnChar_of_not_mem h]
  simp only [parseIPv6Parts]
  rw [if_pos (by simp)]

theorem parseIP_none_of_no_sep {l : PyStr} (hd : '.' ∉ l) (hc : ':' ∉ l) :
    parseIP l = none := by
  unfold parseIP
  rw [parseIPv4_none_of_no_dot hd, parseIPv6_none_of_no_colon hc]

theorem is_ip_false_of_hex {v : PyStr} (h : ∀ c ∈ v, isHexDigitChar c = true) :
    is_ip v = false := by
  unfold is_ip
  rw [pyStrip_eq_self_of_all (fun c hc => isHexDigitChar_not_space (h c hc))]
  rw [parseIP_none_of_no_sep
    (fun hm => absurd (h '.' hm) (by decide))
    (fun hm => absurd (h ':' hm) (by decide))]
  rfl

/-! ### Character sets of rendered addresses -/

theorem hex_of_digit {c : Char} (h : isDigitChar c = true) :
    isHexDigitChar c = true := by
  unfold isHexDigitChar
  rw [h]
  rfl

theorem mem_renderIPv4 {os : List Nat} (hval : ∀ o ∈ os, o ≤ 255) :
    ∀ c ∈ renderIPv4 os, isDigitChar c = true ∨ c = '.' := by
  intro c hc
  unfold renderIPv4 at hc
  rcases mem_joinSep.mp hc with ⟨rfl, _⟩ | ⟨p, hp, hcp⟩
  · exact Or.inr rfl
  · obtain ⟨o, ho, rfl⟩ := List.mem_map.mp hp
    exact Or.inl (renderOctet_digits (hval o ho) c hcp)

theorem dot_mem_renderIPv4 {os : List Nat} (hlen : os.length = 4) :
    '.' ∈ renderIPv4 os := by
  unfold renderIPv4
  exact mem_joinSep.mpr (Or.inl ⟨rfl, by simp [hlen]⟩)

theorem mem_renderIPv6 {hs : List Nat} (hval : ∀ v ∈ hs, v < 65536) :
    ∀ c ∈ renderIPv6 hs, isHexDigitChar c = true ∨ c = ':' := by
  intro c hc
  simp only [renderIPv6] at hc
  rcases hbr : bestRun hs with ⟨bs, bl⟩
  rw [hbr] at hc
  dsimp only at hc
  by_cases hbl : bl ≤ 1
  · rw [if_pos hbl] at hc
    rcases mem_joinSep.mp hc with ⟨rfl, _⟩ | ⟨p, hp, hcp⟩
    · exact Or.inr rfl
    · obtain ⟨v, hv, rfl⟩ := List.mem_map.mp hp
      exact Or.inl (renderHextet_hex (hval v hv) c hcp)
  · rw [if_neg hbl] at hc
    rcases mem_joinSep.mp hc with ⟨rfl, _⟩ | ⟨p, hp, hcp⟩
    · exact Or.inr rfl
    · rcases List.mem_append.mp hp with hp1 | hpB
      · rcases List.mem_append.mp hp1 with hpA | hpM
        · split_ifs at hpA
          · rw [List.mem_singleton] at hpA
            subst hpA
            simp at hcp
          · obtain ⟨v, hv, rfl⟩ := List.mem_map.mp hpA
            exact Or.inl (renderHextet_hex (hval v (List.take_subset _ _ hv)) c hcp)
        · rw [List.mem_singleton] at hpM
          subst hpM
          simp at hcp
      · split_ifs at hpB
        · rw [List.mem_singleton] at hpB
          subst hpB
          simp at hcp
        · obtain ⟨v, hv, rfl⟩ := List.mem_map.mp hpB
          exact Or.inl (renderHextet_hex (hval v (List.drop_subset _ _ hv)) c hcp)

theorem colon_mem_renderIPv6 {hs : List Nat} (hlen : hs.length = 8) :
    ':' ∈ renderIPv6 hs := by
  simp only [renderIPv6]
  rcases hbr : bestRun hs with ⟨bs, bl⟩
  dsimp only
  apply mem_joinSep.mpr
  left
  refine ⟨rfl, ?_⟩
  by_cases hbl : bl ≤ 1
  · rw [if_pos hbl]
    simp [hlen]
  · rw [if_neg hbl]
    split_ifs with h1 h2 h3 <;>
      simp [List.length_take, List.length_drop, hlen] <;> omega

/-! ### Rendered addresses as fixed points of normalize_indicator -/

theorem pyStrip_renderIP {a : IpAddr} (hv : ValidIp a) :
    pyStrip (renderIP a) = renderIP a := by
  apply pyStrip_eq_self_of_all
  intro c hc
  cases a with
  | v4 os =>
    rcases mem_renderIPv4 hv.2 c hc with hd | rfl
    · exact isHexDigitChar_not_space (hex_of_digit hd)
    · decide
  | v6 hs =>
    rcases mem_renderIPv6 hv.2 c hc with hd | rfl
    · exact isHexDigitChar_not_space hd
    · decide

theorem parseIP_renderIP {a : IpAddr} (hv : ValidIp a) :
    parseIP (renderIP a) = some a := by
  cases a with
  | v4 os =>
    unfold parseIP renderIP
    rw [parseIPv4_renderIPv4 hv.1 hv.2]
  | v6 hs =>
    unfold parseIP renderIP
    rw [parseIPv4_none_of_bad (colon_mem_renderIPv6 hv.1) (by decide) (by decide),
      parseIPv6_renderIPv6 hv.1 hv.2]

theorem is_ip_renderIP {a : IpAddr} (hv : ValidIp a) :
    is_ip (renderIP a) = true := by
  unfold is_ip
  rw [pyStrip_renderIP hv, parseIP_renderIP hv]
  rfl

theorem h_not_mem_renderIP {a : IpAddr} (hv : ValidIp a) : 'h' ∉ renderIP a := by
  intro hm
  cases a with
  | v4 os =>
    rcases mem_renderIPv4 hv.2 'h' hm with hd | he
    · exact absurd hd (by decide)
    · exact absurd he (by decide)
  | v6 hs =>
    rcases mem_renderIPv6 hv.2 'h' hm with hd | he
    · exact absurd hd (by decide)
    · exact absurd he (by decide)

theorem is_url_renderIP {a : IpAddr} (hv : ValidIp a) :
    is_url (renderIP a) = false := by
  simp only [is_url]
  rw [pyStrip_renderIP hv]
  cases hp1 : List.isPrefixOf "http://".data (renderIP a) with
  | true =>
    exact absurd ((List.isPrefixOf_iff_prefix.mp hp1).sublist.subset
      (by decide : 'h' ∈ "http://".data)) (h_not_mem_renderIP hv)
  | false =>
    cases hp2 : List.isPrefixOf "https://".data (renderIP a) with
    | true =>
      exact absurd ((List.isPrefixOf_iff_prefix.mp hp2).sublist.subset
        (by decide : 'h' ∈ "https://".data)) (h_not_mem_renderIP hv)
    | false => rfl

theorem is_hash_renderIP {a : IpAddr} (hv : ValidIp a) :
    is_hash (renderIP a) = false := by
  simp only [is_hash]
  rw [pyStrip_renderIP hv]
  have hbad : ∃ c ∈ renderIP a, isHexDigitChar c = false := by
    cases a with
    | v4 os => exact ⟨'.', dot_mem_renderIPv4 hv.1, by decide⟩
    | v6 hs => exact ⟨':', colon_mem_renderIPv6 hv.1, by decide⟩
  obtain ⟨c, hc, hcx⟩ := hbad
  have hall : (renderIP a).all isHexDigitChar = false := by
    cases ha : (renderIP a).all isHexDigitChar with
    | false => rfl
    | true =>
      have := List.all_eq_true.mp ha c hc
      rw [hcx] at this
      exact absurd this (by simp)
  rw [hall, Bool.and_false]

theorem is_domain_renderIP {a : IpAddr} (hv : ValidIp a) :
    is_domain (renderIP a) = false := by
  simp only [is_domain]
  rw [pyStrip_renderIP hv, is_ip_renderIP hv, Bool.or_true, if_pos rfl]

theorem normalize_renderIP {a : IpAddr} (hv : ValidIp a) :
    normalize_indicator (renderIP a) = renderIP a := by
  simp only [normalize_indicator]
  rw [pyStrip_renderIP hv, is_url_renderIP hv, is_domain_renderIP hv,
    is_hash_renderIP hv, is_ip_renderIP hv]
  simp only [Bool.false_eq_true, if_false, if_true]
  rw [parseIP_renderIP hv]

/-! ### Lowercasing commutes with address parsing -/

theorem isDigitChar_pyLowerChar (c : Char) :
    isDigitChar (pyLowerChar c) = isDigitChar c := by
  rcases pyLowerChar_cases c with ⟨h₁, h₂, h₃⟩ | ⟨_, he⟩
  · have d1 : isDigitChar (pyLowerChar c) = false := by
      cases hd : isDigitChar (pyLowerChar c) with
      | false => rfl
      | true => rw [isDigitChar_toNat] at hd; omega
    have d2 : isDigitChar c = false := by
      cases hd : isDigitChar c with
      | false => rfl
      | true => rw [isDigitChar_toNat] at hd; omega
    rw [d1, d2]
  · rw [he]

theorem isHexDigitChar_pyLowerChar (c : Char) :
    isHexDigitChar (pyLowerChar c) = isHexDigitChar c := by
  rcases pyLowerChar_cases c with ⟨h₁, h₂, h₃⟩ | ⟨_, he⟩
  · by_cases hc : 65 ≤ c.toNat ∧ c.toNat ≤ 70
    · have e1 : isHexDigitChar c = true := by rw [isHexDigitChar_toNat]; omega
      have e2 : isHexDigitChar (pyLowerChar c) = true := by
        rw [isHexDigitChar_toNat]; omega
      rw [e1, e2]
    · have e1 : isHexDigitChar c = false := by
        cases hh : isHexDigitChar c with
        | false => rfl
        | true => rw [isHexDigitChar_toNat] at hh; omega
      have e2 : isHexDigitChar (pyLowerChar c) = false := by
        cases hh : isHexDigitChar (pyLowerChar c) with
        | false => rfl
        | true => rw [isHexDigitChar_toNat] at hh; omega
      rw [e1, e2]
  · rw [he]

theorem hexCharVal_pyLowerChar {c : Char} (h : isHexDigitChar c = true) :
    hexCharVal (pyLowerChar c) = hexCharVal c := by
  rcases pyLowerChar_cases c with ⟨h₁, h₂, h₃⟩ | ⟨_, he⟩
  · rw [isHexDigitChar_toNat] at h
    unfold hexCharVal
    have hd1 : isDigitChar (pyLowerChar c) = false := by
      cases hd : isDigitChar (pyLowerChar c) with
      | false => rfl
      | true => rw [isDigitChar_toNat] at hd; omega
    have hd2 : isDigitChar c = false := by
      cases hd : isDigitChar c with
      | false => rfl
      | true => rw [isDigitChar_toNat] at hd; omega
    rw [hd1, hd2]
    simp only [Bool.false_eq_true, if_false]
    rw [if_pos (by omega : 97 ≤ (pyLowerChar c).toNat ∧ (pyLowerChar c).toNat ≤ 102),
      if_neg (by omega : ¬(97 ≤ c.toNat ∧ c.toNat ≤ 102)),
      if_pos (by omega : 65 ≤ c.toNat ∧ c.toNat ≤ 70), h₃]
    omega
  · rw [he]

theorem pyLower_eq_self_of_digits {p : PyStr} (h : p.all isDigitChar = true) :
    p.map pyLowerChar = p := by
  have hcongr : ∀ c ∈ p, pyLowerChar c = id c := by
    intro c hc
    have := List.all_eq_true.mp h c hc
    rw [isDigitChar_toNat] at this
    exact pyLowerChar_eq_self (by omega)
  rw [List.map_congr_left hcongr, List.map_id]

theorem parseOctet_pyLower (p : PyStr) :
    parseOctet (p.map pyLowerChar) = parseOctet p := by
  cases hall : p.all isDigitChar with
  | true => rw [pyLower_eq_self_of_digits hall]
  | false =>
    obtain ⟨c, hc, hcd⟩ := List.all_eq_false.mp hall
    have hcd' : isDigitChar c = false := by
      cases hx : isDigitChar c with
      | false => rfl
      | true => exact absurd hx hcd
    rw [parseOctet_none_of_bad hc hcd',
      parseOctet_none_of_bad (List.mem_map_of_mem _ hc)
        (by rw [isDigitChar_pyLowerChar]; exact hcd')]

theorem parseIPv4_pyLower (l : PyStr) :
    parseIPv4 (pyLower l) = parseIPv4 l := by
  simp only [parseIPv4, pyLower]
  rw [splitOnChar_map pyLowerChar
    (fun c => pyLowerChar_eq_iff_lt65 (by decide)) l]
  rw [List.length_map]
  split_ifs with h
  · rw [List.map_map]
    congr 1
    apply List.map_congr_left
    intro p hp
    exact parseOctet_pyLower p
  · rfl

theorem parseHextet_none_of_bad {p : PyStr} {c : Char} (hc : c ∈ p)
    (hnd : isHexDigitChar c = false) : parseHextet p = none := by
  have hne : p ≠ [] := by rintro rfl; simp at hc
  have hall : p.all isHexDigitChar = false := by
    cases ha : p.all isHexDigitChar with
    | false => rfl
    | true =>
      have := List.all_eq_true.mp ha c hc
      rw [hnd] at this
      exact absurd this (by simp)
  unfold parseHextet
  rw [if_neg hne, if_pos (by rw [hall]; simp)]

theorem all_hex_pyLower (p : PyStr) :
    (p.map pyLowerChar).all isHexDigitChar = p.all isHexDigitChar := by
  induction p with
  | nil => rfl
  | cons c t ih =>
    simp only [List.map_cons, List.all_cons, ih, isHexDigitChar_pyLowerChar]

theorem hexFold_pyLower {p : PyStr} (h : ∀ c ∈ p, isHexDigitChar c = true) :
    ∀ a : Nat, List.foldl (fun a c => a * 16 + hexCharVal c) a (p.map pyLowerChar) =
      List.foldl (fun a c => a * 16 + hexCharVal c) a p := by
  induction p with
  | nil => intro a; rfl
  | cons c t ih =>
    intro a
    show List.foldl _ (a * 16 + hexCharVal (pyLowerChar c)) (t.map pyLowerChar) = _
    rw [hexCharVal_pyLowerChar (h c (List.mem_cons_self _ _))]
    exact ih (fun x hx => h x (List.mem_cons_of_mem _ hx)) _

theorem hexValue_pyLower {p : PyStr} (h : ∀ c ∈ p, isHexDigitChar c = true) :
    hexValue (p.map pyLowerChar) = hexValue p :=
  hexFold_pyLower h 0

theorem parseHextet_pyLower (p : PyStr) :
    parseHextet (p.map pyLowerChar) = parseHextet p := by
  unfold parseHextet
  simp only [List.map_eq_nil, List.length_map, all_hex_pyLower]
  split_ifs with h1 h2 h3 <;>
    first
      | rfl
      | exact congrArg some (hexValue_pyLower (fun c hc =>
          List.all_eq_true.mp (by simpa using h2) c hc))

theorem isEmpty_map (f : Char → Char) (p : PyStr) :
    (p.map f).isEmpty = p.isEmpty := by cases p <;> rfl

theorem findIdx_isEmpty_map (f : Char → Char) (l : List PyStr) :
    List.findIdx (·.isEmpty) (l.map (List.map f)) =
      List.findIdx (·.isEmpty) l := by
  induction l with
  | nil => rfl
  | cons p t ih =>
    simp only [List.map_cons, List.findIdx_cons, isEmpty_map, ih]

theorem countP_isEmpty_map (f : Char → Char) (l : List PyStr) :
    List.countP (·.isEmpty) (l.map (List.map f)) =
      List.countP (·.isEmpty) l := by
  induction l with
  | nil => rfl
  | cons p t ih =>
    simp only [List.map_cons, List.countP_cons, isEmpty_map, ih]

theorem headD_isEmpty_map (f : Char → Char) (l : List PyStr) :
    ((l.map (List.map f)).headD [' ']).isEmpty = (l.headD [' ']).isEmpty := by
  cases l with
  | nil => rfl
  | cons p t => simp [isEmpty_map]

theorem getLastD_isEmpty_map (f : Char → Char) (l : List PyStr) :
    ((l.map (List.map f)).getLastD [' ']).isEmpty =
      (l.getLastD [' ']).isEmpty := by
  rw [List.getLastD_eq_getLast?, List.getLastD_eq_getLast?, List.getLast?_map]
  cases hl : l.getLast? with
  | none => rfl
  | some p => simp [isEmpty_map]

theorem seq_parseHextet_pyLower (l : List PyStr) :
    seqOption ((l.map (List.map pyLowerChar)).map parseHextet) =
      seqOption (l.map parseHextet) := by
  rw [List.map_map]
  congr 1
  apply List.map_congr_left
  intro p hp
  exact parseHextet_pyLower p

theorem ipv6Assemble_pyLower (parts : List PyStr) (hi lo : Nat) :
    ipv6Assemble (parts.map (List.map pyLowerChar)) hi lo =
      ipv6Assemble parts hi lo := by
  simp only [ipv6Assemble, List.length_map]
  split_ifs with h
  · rfl
  · rw [← List.map_take, ← List.map_drop, seq_parseHextet_pyLower,
      seq_parseHextet_pyLower]

theorem ipv6OneSkip_pyLower (parts : List PyStr) (si : Nat) :
    ipv6OneSkip (parts.map (List.map pyLowerChar)) si = ipv6OneSkip parts si := by
  simp only [ipv6OneSkip, List.length_map, headD_isEmpty_map,
    getLastD_isEmpty_map, ipv6Assemble_pyLower]

theorem parseIPv6Parts_pyLower (parts : List PyStr) :
    parseIPv6Parts (parts.map (List.map pyLowerChar)) = parseIPv6Parts parts := by
  have hmids : ((parts.map (List.map pyLowerChar)).drop 1).dropLast =
      ((parts.drop 1).dropLast).map (List.map pyLowerChar) := by
    rw [← List.map_drop, ← List.map_dropLast]
  simp only [parseIPv6Parts, List.length_map, hmids, countP_isEmpty_map,
    findIdx_isEmpty_map, ipv6OneSkip_pyLower]
  split_ifs <;> try rfl
  exact seq_parseHextet_pyLower parts

theorem parseIPv6_pyLower (l : PyStr) : parseIPv6 (pyLower l) = parseIPv6 l := by
  unfold parseIPv6
  rw [pyLower, splitOnChar_map pyLowerChar
    (fun c => pyLowerChar_eq_iff_lt65 (by decide)) l, parseIPv6Parts_pyLower]

theorem parseIP_pyLower (l : PyStr) : parseIP (pyLower l) = parseIP l := by
  unfold parseIP
  rw [parseIPv4_pyLower, parseIPv6_pyLower]

/-! ### Lowercasing and the stripped shape -/

theorem noLead_of_strip {i : PyStr} (h : pyStrip i = i) : NoLead i := by
  rw [← h]
  exact pyStrip_noLead i

theorem noTail_of_strip {i : PyStr} (h : pyStrip i = i) : NoLead i.reverse :=
  h ▸ pyStrip_noTail i

theorem pyStrip_pyLower {i : PyStr} (h : pyStrip i = i) :
    pyStrip (pyLower i) = pyLower i := by
  apply pyStrip_eq_self_of
  · intro c hc
    rw [pyLower, List.head?_map] at hc
    cases hh : i.head? with
    | none => rw [hh] at hc; exact Option.noConfusion hc
    | some d =>
      rw [hh] at hc
      have hcd : c = pyLowerChar d := (Option.some.inj hc).symm
      rw [hcd, isSpaceChar_pyLowerChar]
      exact noLead_of_strip h d hh
  · intro c hc
    rw [pyLower, ← List.map_reverse, List.head?_map] at hc
    cases hh : i.reverse.head? with
    | none => rw [hh] at hc; exact Option.noConfusion hc
    | some d =>
      rw [hh] at hc
      have hcd : c = pyLowerChar d := (Option.some.inj hc).symm
      rw [hcd, isSpaceChar_pyLowerChar]
      exact noTail_of_strip h d hh

theorem is_ip_pyLower {i : PyStr} (h : pyStrip i = i) :
    is_ip (pyLower i) = is_ip i := by
  unfold is_ip
  rw [pyStrip_pyLower h, h, parseIP_pyLower]

theorem is_url_pyLower {i : PyStr} (hii : pyStrip i = i) (h : is_url i = true) :
    is_url (pyLower i) = true := by
  simp only [is_url, Bool.or_eq_true, List.isPrefixOf_iff_prefix] at h ⊢
  rw [hii] at h
  rw [pyStrip_pyLower hii]
  simp only [pyLower]
  rcases h with h | h
  · left
    have hm := h.map pyLowerChar
    rwa [show List.map pyLowerChar "http://".data = "http://".data from by decide]
      at hm
  · right
    have hm := h.map pyLowerChar
    rwa [show List.map pyLowerChar "https://".data = "https://".data from by decide]
      at hm

theorem is_ip_false_of_domain {v : PyStr} (h : is_domain v = true) :
    is_ip v = false := by
  simp only [is_domain] at h
  by_contra hc
  rw [Bool.not_eq_false] at hc
  have hstrip : is_ip (pyStrip v) = true := by
    simp only [is_ip, pyStrip_idem]
    simpa [is_ip] using hc
  rw [hstrip, Bool.or_true] at h
  simp at h

/-- `normalize_indicator` on an already-stripped input, with the leading
`value.strip()` discharged. -/
theorem normalize_indicator_of_stripped {i : PyStr} (hii : pyStrip i = i) :
    normalize_indicator i =
      if is_url i then pyLower i
      else if is_domain i then pyLower i
      else if is_hash i then pyLower i
      else if is_ip i then
        match parseIP i with
        | some a => renderIP a
        | none => i
      else i := by
  simp only [normalize_indicator, hii]

/-- Stripping first does not change the result: `normalize_indicator` strips
its argument itself. -/
theorem normalize_indicator_pyStrip (x : PyStr) :
    normalize_indicator (pyStrip x) = normalize_indicator x := by
  simp only [normalize_indicator, pyStrip_idem]

/-! ### Strip-invariance of the classifiers and detect_type inversion -/

theorem is_ip_strip (v : PyStr) : is_ip (pyStrip v) = is_ip v := by
  simp only [is_ip, pyStrip_idem]

theorem is_url_strip (v : PyStr) : is_url (pyStrip v) = is_url v := by
  simp only [is_url, pyStrip_idem]

theorem is_hash_strip (v : PyStr) : is_hash (pyStrip v) = is_hash v := by
  simp only [is_hash, pyStrip_idem]

theorem is_domain_strip (v : PyStr) : is_domain (pyStrip v) = is_domain v := by
  simp only [is_domain, pyStrip_idem]

theorem detect_type_email {v : PyStr} (h : detect_type v = "Email") :
    v ≠ [] ∧ is_ip v = false ∧ is_hash v = false ∧ is_url v = false ∧
      is_email v = true := by
  unfold detect_type at h
  split_ifs at h with h1 h2 h3 h4 h5 h6
  all_goals first
    | exact absurd h (by decide)
    | exact ⟨h1, by simpa using h2, by simpa using h3, by simpa using h4, h5⟩

theorem detect_type_unknown {v : PyStr} (h : detect_type v = "Unknown") :
    v = [] ∨ (is_ip v = false ∧ is_hash v = false ∧ is_url v = false ∧
      is_email v = false ∧ is_domain v = false) := by
  unfold detect_type at h
  split_ifs at h with h1 h2 h3 h4 h5 h6
  all_goals first
    | exact absurd h (by decide)
    | exact Or.inl h1
    | exact Or.inr ⟨by simpa using h2, by simpa using h3, by simpa using h4,
        by simpa using h5, by simpa using h6⟩

/-! ### Upsert step lemmas -/

theorem strLe_refl (l : PyStr) : strLe l l = true := by
  unfold strLe
  rw [strLt_irrefl]
  rfl

theorem processIoc_insert {store : List StoredIoc} {ioc : InputIoc}
    {ind ty src dc md : PyStr}
    (hind : ioc.indicator = some ind) (hty : ioc.type = some ty)
    (hsrc : ioc.source = some src) (hdc : ioc.date_collected = some dc)
    (hmd : jsonDumps (ioc.metadata.getD PyMeta.emptyDict) = some md)
    (hf : store.find? (fun r => r.indicator == ind && r.type == ty) = none) :
    processIoc store ioc =
      .ok (store ++ [{ indicator := ind, type := ty, source := src,
                       first_seen := dc, last_seen := dc, seen_count := 1,
                       confidence := ioc.confidence.getD medium,
                       threat_level := ioc.threat_level.getD medium,
                       metadata := md }], .inserted) := by
  simp only [processIoc, hind, hty, hf, hsrc, hdc, hmd]

theorem processIoc_update {store : List StoredIoc} {ioc : InputIoc}
    {ind ty src dc md : PyStr} {row : StoredIoc}
    (hind : ioc.indicator = some ind) (hty : ioc.type = some ty)
    (hsrc : ioc.source = some src) (hdc : ioc.date_collected = some dc)
    (hmd : jsonDumps (ioc.metadata.getD PyMeta.emptyDict) = some md)
    (hf : store.find? (fun r => r.indicator == ind && r.type == ty) =
      some row) :
    processIoc store ioc =
      .ok (store.map (fun r =>
            if r.indicator == ind && r.type == ty then
              { r with last_seen := pyMax row.last_seen dc,
                       seen_count := row.seen_count + 1,
                       source := src,
                       confidence := ioc.confidence.getD medium,
                       threat_level := ioc.threat_level.getD medium,
                       metadata := md }
            else r), .updated) := by
  simp only [processIoc, hind, hty, hf, hsrc, hdc, hmd]

theorem upsertGo_cons_eq (store : List StoredIoc) (ioc : InputIoc)
    (rest : List InputIoc) (stats : UpsertStats) :
    upsertGo store (ioc :: rest) stats =
      match processIoc store ioc with
      | .ok (s', .inserted) => upsertGo s' rest
          { stats with processed := stats.processed + 1, new := stats.new + 1 }
      | .ok (s', .updated) => upsertGo s' rest
          { stats with processed := stats.processed + 1,
                       updated := stats.updated + 1 }
      | .error _ =>
        if ioc.indicator.isSome then
          upsertGo store rest
            { stats with processed := stats.processed + 1,
                         errors := stats.errors + 1 }
        else ⟨store, { stats with processed := stats.processed + 1,
                                  errors := stats.errors + 1 }, true⟩ := by
  rfl

theorem upsertGo_cons_insert {store s' : List StoredIoc} {ioc : InputIoc}
    (rest : List InputIoc) (stats : UpsertStats)
    (hp : processIoc store ioc = .ok (s', .inserted)) :
    upsertGo store (ioc :: rest) stats =
      upsertGo s' rest { stats with processed := stats.processed + 1,
                                    new := stats.new + 1 } := by
  rw [upsertGo_cons_eq, hp]

theorem upsertGo_cons_update {store s' : List StoredIoc} {ioc : InputIoc}
    (rest : List InputIoc) (stats : UpsertStats)
    (hp : processIoc store ioc = .ok (s', .updated)) :
    upsertGo store (ioc :: rest) stats =
      upsertGo s' rest { stats with processed := stats.processed + 1,
                                    updated := stats.updated + 1 } := by
  rw [upsertGo_cons_eq, hp]

theorem upsertGo_cons_error {store : List StoredIoc} {ioc : InputIoc}
    {e : Unit} (rest : List InputIoc) (stats : UpsertStats)
    (hp : processIoc store ioc = .error e) :
    upsertGo store (ioc :: rest) stats =
      (if ioc.indicator.isSome then
        upsertGo store rest
          { stats with processed := stats.processed + 1,
                       errors := stats.errors + 1 }
      else ⟨store, { stats with processed := stats.processed + 1,
                                errors := stats.errors + 1 }, true⟩) := by
  rw [upsertGo_cons_eq, hp]

/-- Inversion of a successful `processIoc` call: the record carried every
key read by the try body, and the store moved by an INSERT or an UPDATE. -/
theorem processIoc_ok_cases {store store' : List StoredIoc} {ioc : InputIoc}
    {act : RowAction} (h : processIoc store ioc = .ok (store', act)) :
    ∃ ind ty src dc md, ioc.indicator = some ind ∧ ioc.type = some ty ∧
      ioc.source = some src ∧ ioc.date_collected = some dc ∧
      jsonDumps (ioc.metadata.getD PyMeta.emptyDict) = some md ∧
      ((store.find? (fun r => r.indicator == ind && r.type == ty) = none ∧
        act = .inserted ∧
        store' = store ++ [{ indicator := ind, type := ty, source := src,
                             first_seen := dc, last_seen := dc,
                             seen_count := 1,
                             confidence := ioc.confidence.getD medium,
                             threat_level := ioc.threat_level.getD medium,
                             metadata := md }]) ∨
       (∃ row, store.find? (fun r => r.indicator == ind && r.type == ty) =
          some row ∧ act = .updated ∧
        store' = store.map (fun r =>
          if r.indicator == ind && r.type == ty then
            { r with last_seen := pyMax row.last_seen dc,
                     seen_count := row.seen_count + 1, source := src,
                     confidence := ioc.confidence.getD medium,
                     threat_level := ioc.threat_level.getD medium,
                     metadata := md }
          else r))) := by
  cases hind : ioc.indicator with
  | none => simp only [processIoc, hind] at h; exact Except.noConfusion h
  | some ind =>
  cases hty : ioc.type with
  | none => simp only [processIoc, hind, hty] at h; exact Except.noConfusion h
  | some ty =>
  refine ⟨ind, ty, ?_⟩
  cases hf : store.find? (fun r => r.indicator == ind && r.type == ty) with
  | none =>
    cases hsrc : ioc.source with
    | none => simp only [processIoc, hind, hty, hf, hsrc] at h; exact Except.noConfusion h
    | some src =>
    cases hdc : ioc.date_collected with
    | none => simp only [processIoc, hind, hty, hf, hsrc, hdc] at h; exact Except.noConfusion h
    | some dc =>
    cases hmd : jsonDumps (ioc.metadata.getD PyMeta.emptyDict) with
    | none => simp only [processIoc, hind, hty, hf, hsrc, hdc, hmd] at h; exact Except.noConfusion h
    | some md =>
    simp only [processIoc, hind, hty, hf, hsrc, hdc, hmd, Except.ok.injEq,
      Prod.mk.injEq] at h
    exact ⟨src, dc, md, rfl, rfl, rfl, rfl, rfl, Or.inl ⟨rfl, h.2.symm, h.1.symm⟩⟩
  | some row =>
    cases hsrc : ioc.source with
    | none => simp only [processIoc, hind, hty, hf, hsrc] at h; exact Except.noConfusion h
    | some src =>
    cases hdc : ioc.date_collected with
    | none => simp only [processIoc, hind, hty, hf, hsrc, hdc] at h; exact Except.noConfusion h
    | some dc =>
    cases hmd : jsonDumps (ioc.metadata.getD PyMeta.emptyDict) with
    | none => simp only [processIoc, hind, hty, hf, hsrc, hdc, hmd] at h; exact Except.noConfusion h
    | some md =>
    simp only [processIoc, hind, hty, hf, hsrc, hdc, hmd, Except.ok.injEq,
      Prod.mk.injEq] at h
    exact ⟨src, dc, md, rfl, rfl, rfl, rfl, rfl,
      Or.inr ⟨row, rfl, h.2.symm, h.1.symm⟩⟩

/-! ### Store invariant preservation -/

/-- In a store with pairwise-distinct `(indicator, type)` keys, two member
rows with the same key are the same row. -/
theorem eq_of_pairwise_key {store : List StoredIoc}
    (hp : List.Pairwise
      (fun a b => (a.indicator, a.type) ≠ (b.indicator, b.type)) store)
    {r row : StoredIoc} (hr : r ∈ store) (hrow : row ∈ store)
    (hk : r.indicator = row.indicator) (hk2 : r.type = row.type) : r = row := by
  induction store with
  | nil => cases hr
  | cons a t ih =>
    rw [List.pairwise_cons] at hp
    rcases List.mem_cons.mp hr with h1 | h1
    · rcases List.mem_cons.mp hrow with h2 | h2
      · rw [h1, h2]
      · subst h1
        exact absurd (by rw [hk, hk2]) (hp.1 row h2)
    · rcases List.mem_cons.mp hrow with h2 | h2
      · subst h2
        exact absurd (by rw [hk, hk2]) (hp.1 r h1)
      · exact ih hp.2 h1 h2

theorem insert_invariant {store : List StoredIoc} {row : StoredIoc}
    (hinv : StoreInvariant store)
    (hfl : strLe row.first_seen row.last_seen = true) (hc : 1 ≤ row.seen_count)
    (hkey : ∀ r ∈ store, (r.indicator, r.type) ≠ (row.indicator, row.type)) :
    StoreInvariant (store ++ [row]) := by
  obtain ⟨hrows, hpw⟩ := hinv
  refine ⟨?_, ?_⟩
  · intro r hr
    rcases List.mem_append.mp hr with hr | hr
    · exact hrows r hr
    · rw [List.mem_singleton] at hr
      subst hr
      exact ⟨hfl, hc⟩
  · rw [List.pairwise_append]
    refine ⟨hpw, List.pairwise_singleton _ _, ?_⟩
    intro a ha b hb
    rw [List.mem_singleton] at hb
    subst hb
    exact hkey a ha

theorem update_invariant {store : List StoredIoc} {ind ty : PyStr}
    {row : StoredIoc} (hinv : StoreInvariant store)
    (hf : store.find? (fun r => r.indicator == ind && r.type == ty) = some row)
    (dc src conf tl md : PyStr) :
    StoreInvariant (store.map (fun r =>
      if r.indicator == ind && r.type == ty then
        { r with last_seen := pyMax row.last_seen dc,
                 seen_count := row.seen_count + 1, source := src,
                 confidence := conf, threat_level := tl, metadata := md }
      else r)) := by
  obtain ⟨hrows, hpw⟩ := hinv
  have hrow_mem : row ∈ store := List.mem_of_find?_eq_some hf
  have hrow_p0 := List.find?_some hf
  have hrow_p : (row.indicator == ind && row.type == ty) = true := hrow_p0
  refine ⟨?_, ?_⟩
  · intro r' hr'
    rw [List.mem_map] at hr'
    obtain ⟨r, hr, rfl⟩ := hr'
    by_cases hk : (r.indicator == ind && r.type == ty) = true
    · rw [if_pos hk]
      have hreq : r = row := by
        simp only [Bool.and_eq_true, beq_iff_eq] at hk hrow_p
        exact eq_of_pairwise_key hpw hr hrow_mem (by rw [hk.1, hrow_p.1])
          (by rw [hk.2, hrow_p.2])
      subst hreq
      exact ⟨strLe_pyMax (hrows r hr).1, Nat.le_add_left 1 r.seen_count⟩
    · rw [if_neg hk]
      exact hrows r hr
  · rw [List.pairwise_map]
    refine hpw.imp ?_
    intro a b hab
    dsimp only
    split_ifs <;> simpa using hab

theorem processIoc_invariant {store store' : List StoredIoc} {ioc : InputIoc}
    {act : RowAction} (hinv : StoreInvariant store)
    (h : processIoc store ioc = .ok (store', act)) : StoreInvariant store' := by
  obtain ⟨ind, ty, src, dc, md, hind, hty, hsrc, hdc, hmd, hcase⟩ :=
    processIoc_ok_cases h
  rcases hcase with ⟨hf, hact, rfl⟩ | ⟨row, hf, hact, rfl⟩
  · apply insert_invariant hinv (strLe_refl dc) (Nat.le_refl 1)
    intro r hr heq
    have hnp := List.find?_eq_none.mp hf r hr
    rw [Prod.mk.injEq] at heq
    simp only [Bool.and_eq_true, beq_iff_eq, not_and] at hnp
    exact hnp heq.1 heq.2
  · exact update_invariant hinv hf dc src (ioc.confidence.getD medium)
      (ioc.threat_level.getD medium) md

theorem upsert_invariant_go (batch : List InputIoc) (store : List StoredIoc)
    (stats : UpsertStats) (hinv : StoreInvariant store) :
    StoreInvariant (upsertGo store batch stats).store := by
  induction batch generalizing store stats with
  | nil => exact hinv
  | cons ioc rest ih =>
    cases hp : processIoc store ioc with
    | ok pr =>
      obtain ⟨s', act⟩ := pr
      have hinv' : StoreInvariant s' := processIoc_invariant hinv hp
      cases act with
      | inserted =>
        rw [upsertGo_cons_insert rest stats hp]
        exact ih s' _ hinv'
      | updated =>
        rw [upsertGo_cons_update rest stats hp]
        exact ih s' _ hinv'
    | error e =>
      rw [upsertGo_cons_error rest stats hp]
      by_cases hi : ioc.indicator.isSome = true
      · rw [if_pos hi]
        exact ih store _ hinv
      · rw [if_neg hi]
        exact hinv

/-! ### Abort-freedom and counter bookkeeping -/

theorem upsertGo_no_abort (batch : List InputIoc)
    (h : ∀ i ∈ batch, i.indicator.isSome = true) (store : List StoredIoc)
    (stats : UpsertStats) :
    (upsertGo store batch stats).aborted = false ∧
    (upsertGo store batch stats).stats.processed =
      stats.processed + batch.length := by
  induction batch generalizing store stats with
  | nil => exact ⟨rfl, rfl⟩
  | cons ioc rest ih =>
    have hr : ∀ i ∈ rest, i.indicator.isSome = true :=
      fun i hi => h i (List.mem_cons_of_mem _ hi)
    cases hp : processIoc store ioc with
    | ok pr =>
      obtain ⟨s', act⟩ := pr
      cases act with
      | inserted =>
        rw [upsertGo_cons_insert rest stats hp]
        obtain ⟨h1, h2⟩ := ih hr s'
          { stats with processed := stats.processed + 1, new := stats.new + 1 }
        refine ⟨h1, ?_⟩
        rw [h2, List.length_cons]
        dsimp only
        omega
      | updated =>
        rw [upsertGo_cons_update rest stats hp]
        obtain ⟨h1, h2⟩ := ih hr s'
          { stats with processed := stats.processed + 1,
                       updated := stats.updated + 1 }
        refine ⟨h1, ?_⟩
        rw [h2, List.length_cons]
        dsimp only
        omega
    | error e =>
      rw [upsertGo_cons_error rest stats hp,
        if_pos (h ioc (List.mem_cons_self _ _))]
      obtain ⟨h1, h2⟩ := ih hr store
        { stats with processed := stats.processed + 1,
                     errors := stats.errors + 1 }
      refine ⟨h1, ?_⟩
      rw [h2, List.length_cons]
      dsimp only
      omega

theorem upsertGo_balance (batch : List InputIoc) (store : List StoredIoc)
    (stats : UpsertStats)
    (h : stats.processed = stats.new + stats.updated + stats.errors)
    (hab : (upsertGo store batch stats).aborted = false) :
    (upsertGo store batch stats).stats.processed =
      (upsertGo store batch stats).stats.new +
      (upsertGo store batch stats).stats.updated +
      (upsertGo store batch stats).stats.errors := by
  induction batch generalizing store stats with
  | nil => exact h
  | cons ioc rest ih =>
    cases hp : processIoc store ioc with
    | ok pr =>
      obtain ⟨s', act⟩ := pr
      cases act with
      | inserted =>
        rw [upsertGo_cons_insert rest stats hp] at hab ⊢
        exact ih s' _ (by dsimp only; omega) hab
      | updated =>
        rw [upsertGo_cons_update rest stats hp] at hab ⊢
        exact ih s' _ (by dsimp only; omega) hab
    | error e =>
      rw [upsertGo_cons_error rest stats hp] at hab ⊢
      by_cases hi : ioc.indicator.isSome = true
      · rw [if_pos hi] at hab ⊢
        exact ih store _ (by dsimp only; omega) hab
      · rw [if_neg hi] at hab
        dsimp only at hab
        exact Bool.noConfusion hab

/-! ### run_collection helpers -/

theorem collectedIocs_cons (f : FeedResult) (t : List FeedResult) :
    collectedIocs (f :: t) =
      (match f with | .ok items => items | .error _ => []) ++
        collectedIocs t := by
  cases f <;> simp [collectedIocs]

theorem collectedIocs_append (l1 l2 : List FeedResult) :
    collectedIocs (l1 ++ l2) = collectedIocs l1 ++ collectedIocs l2 := by
  induction l1 with
  | nil => rfl
  | cons f t ih =>
    rw [List.cons_append, collectedIocs_cons, collectedIocs_cons, ih,
      List.append_assoc]

theorem run_collection_empty (db : DBState) (feeds : List FeedResult)
    (now : PyStr) (h : collectedIocs feeds = []) :
    run_collection db feeds now =
      (db, some ⟨"no_data", ⟨0, 0, 0, 0⟩, collectionErrors feeds, 0⟩) := by
  simp only [run_collection]
  rw [if_neg (fun hc => hc h)]

theorem run_collection_status_nonempty (db : DBState)
    (feeds : List FeedResult) (now : PyStr) (h : collectedIocs feeds ≠ []) :
    (run_collection db feeds now).2.map (fun r => r.status) =
      (if (insert_or_update_iocs db.iocs (collectedIocs feeds)).aborted then
        none
      else some "success") := by
  simp only [run_collection]
  rw [if_pos h]
  by_cases hab :
      (insert_or_update_iocs db.iocs (collectedIocs feeds)).aborted = true
  · rw [if_pos hab, if_pos hab]
    rfl
  · rw [if_neg hab, if_neg hab]
    rfl

theorem run_collection_store_nonempty (db : DBState)
    (feeds : List FeedResult) (now : PyStr) (h : collectedIocs feeds ≠ []) :
    (run_collection db feeds now).1.iocs =
      (insert_or_update_iocs db.iocs (collectedIocs feeds)).store := by
  simp only [run_collection]
  rw [if_pos h]
  by_cases hab :
      (insert_or_update_iocs db.iocs (collectedIocs feeds)).aborted = true
  · rw [if_pos hab]
  · rw [if_neg hab]

/-! ## Claims -/

/-- C9: canonicalization is idempotent — for every string x,
`normalize_indicator (normalize_indicator x) = normalize_indicator x`
(the detected type is recomputed inside `normalize_indicator` itself, so the
type argument of the spec's `canonicalize(x, t)` is the detected type). -/
theorem claim_C9 (x : PyStr) :
    normalize_indicator (normalize_indicator x) = normalize_indicator x := by
  have hii : pyStrip (pyStrip x) = pyStrip x := pyStrip_idem x
  rw [← normalize_indicator_pyStrip x]
  generalize hgen : pyStrip x = i at hii ⊢
  rw [normalize_indicator_of_stripped hii]
  have hLstrip : pyStrip (pyLower i) = pyLower i := pyStrip_pyLower hii
  by_cases hu : is_url i = true
  · rw [if_pos hu, normalize_indicator_of_stripped hLstrip,
      if_pos (is_url_pyLower hii hu)]
    exact pyLower_idem i
  · rw [if_neg hu]
    by_cases hd : is_domain i = true
    · rw [if_pos hd, normalize_indicator_of_stripped hLstrip]
      have hipL : is_ip (pyLower i) = false := by
        rw [is_ip_pyLower hii]
        exact is_ip_false_of_domain hd
      by_cases hu2 : is_url (pyLower i) = true
      · rw [if_pos hu2]; exact pyLower_idem i
      · rw [if_neg hu2]
        by_cases hd2 : is_domain (pyLower i) = true
        · rw [if_pos hd2]; exact pyLower_idem i
        · rw [if_neg hd2]
          by_cases hh2 : is_hash (pyLower i) = true
          · rw [if_pos hh2]; exact pyLower_idem i
          · rw [if_neg hh2, if_neg (by simp [hipL])]
    · rw [if_neg hd]
      by_cases hh : is_hash i = true
      · rw [if_pos hh, normalize_indicator_of_stripped hLstrip]
        have hipL : is_ip (pyLower i) = false := by
          rw [is_ip_pyLower hii]
          apply is_ip_false_of_hex
          simp only [is_hash, hii, Bool.and_eq_true, List.all_eq_true] at hh
          exact fun c hc => hh.2 c hc
        by_cases hu2 : is_url (pyLower i) = true
        · rw [if_pos hu2]; exact pyLower_idem i
        · rw [if_neg hu2]
          by_cases hd2 : is_domain (pyLower i) = true
          · rw [if_pos hd2]; exact pyLower_idem i
          · rw [if_neg hd2]
            by_cases hh2 : is_hash (pyLower i) = true
            · rw [if_pos hh2]; exact pyLower_idem i
            · rw [if_neg hh2, if_neg (by simp [hipL])]
      · rw [if_neg hh]
        by_cases hip : is_ip i = true
        · rw [if_pos hip]
          have hsome : ∃ a, parseIP i = some a := by
            simp only [is_ip, hii] at hip
            exact Option.isSome_iff_exists.mp hip
          obtain ⟨a, ha⟩ := hsome
          rw [ha]
          exact normalize_renderIP (parseIP_valid ha)
        · rw [if_neg hip, normalize_indicator_of_stripped hii,
            if_neg hu, if_neg hd, if_neg hh, if_neg hip]

/-- C3: `detect_type` tries its rules in the fixed order IP, Hash, URL,
Email, Domain, returning at the first match (each conjunct fixes the earlier
rules to not match and the current rule to match); in particular a string of
exactly 32, 40 or 64 hex characters — all-digit ones included — classifies
as Hash and never as Domain or Unknown. -/
theorem claim_C3 :
    (∀ v : PyStr, v ≠ [] → is_ip v = true → detect_type v = "IP") ∧
    (∀ v : PyStr, v ≠ [] → is_ip v = false → is_hash v = true →
      detect_type v = "Hash") ∧
    (∀ v : PyStr, v ≠ [] → is_ip v = false → is_hash v = false →
      is_url v = true → detect_type v = "URL") ∧
    (∀ v : PyStr, v ≠ [] → is_ip v = false → is_hash v = false →
      is_url v = false → is_email v = true → detect_type v = "Email") ∧
    (∀ v : PyStr, v ≠ [] → is_ip v = false → is_hash v = false →
      is_url v = false → is_email v = false → is_domain v = true →
      detect_type v = "Domain") ∧
    (∀ v : PyStr, (v.length = 32 ∨ v.length = 40 ∨ v.length = 64) →
      (∀ c ∈ v, isHexDigitChar c = true) →
      detect_type v = "Hash" ∧ detect_type v ≠ "Domain" ∧
        detect_type v ≠ "Unknown") := by
  have hHash : ∀ v : PyStr, v ≠ [] → is_ip v = false → is_hash v = true →
      detect_type v = "Hash" := by
    intro v h1 h2 h3
    unfold detect_type
    rw [if_neg h1, if_neg (by simp [h2]), if_pos h3]
  refine ⟨?_, hHash, ?_, ?_, ?_, ?_⟩
  · intro v h1 h2
    unfold detect_type
    rw [if_neg h1, if_pos h2]
  · intro v h1 h2 h3 h4
    unfold detect_type
    rw [if_neg h1, if_neg (by simp [h2]), if_neg (by simp [h3]), if_pos h4]
  · intro v h1 h2 h3 h4 h5
    unfold detect_type
    rw [if_neg h1, if_neg (by simp [h2]), if_neg (by simp [h3]),
      if_neg (by simp [h4]), if_pos h5]
  · intro v h1 h2 h3 h4 h5 h6
    unfold detect_type
    rw [if_neg h1, if_neg (by simp [h2]), if_neg (by simp [h3]),
      if_neg (by simp [h4]), if_neg (by simp [h5]), if_pos h6]
  · intro v hlen hhex
    have hne : v ≠ [] := by
      intro h
      subst h
      simp at hlen
    have hip : is_ip v = false := is_ip_false_of_hex hhex
    have hstrip : pyStrip v = v :=
      pyStrip_eq_self_of_all (fun c hc => isHexDigitChar_not_space (hhex c hc))
    have hhash : is_hash v = true := by
      simp only [is_hash, hstrip, Bool.and_eq_true, Bool.or_eq_true,
        decide_eq_true_eq, List.all_eq_true]
      exact ⟨by tauto, hhex⟩
    have hd : detect_type v = "Hash" := hHash v hne hip hhash
    exact ⟨hd, by rw [hd]; decide, by rw [hd]; decide⟩

/-- Witness for C3 at the all-digit 32-character string. -/
theorem claim_C3_witness :
    detect_type (List.replicate 32 '0') = "Hash" ∧
      detect_type (List.replicate 32 '0') ≠ "Domain" ∧
      detect_type (List.replicate 32 '0') ≠ "Unknown" :=
  claim_C3.2.2.2.2.2 (List.replicate 32 '0') (Or.inl (by simp))
    (fun c hc => by rw [List.eq_of_mem_replicate hc]; decide)

/-- C4 counterexample: the spec says Email-typed strings keep their case,
but `A@B.CO` detects as Email while `normalize_indicator` lowercases it —
the string also satisfies `is_domain`, whose branch is reached first. -/
theorem claim_C4_counterexample :
    detect_type "A@B.CO".data = "Email" ∧
      normalize_indicator "A@B.CO".data = "a@b.co".data ∧
      normalize_indicator "A@B.CO".data ≠ pyStrip "A@B.CO".data := by
  decide

/-- C4 (corrected): an Unknown-typed string canonicalizes to the trimmed
original unchanged, but an Email-typed string does so only when the string
does not also satisfy is_domain; when it does (any email whose local part
avoids characters outside `[a-zA-Z0-9.-]` and whose overall length is at
most 253), the domain branch of `normalize_indicator` lowercases it. -/
theorem claim_C4 (x : PyStr) :
    (detect_type x = "Unknown" → normalize_indicator x = pyStrip x) ∧
    (detect_type x = "Email" →
      normalize_indicator x =
        if is_domain x then pyLower (pyStrip x) else pyStrip x) := by
  constructor
  · intro h
    rcases detect_type_unknown h with h0 | ⟨hip, hh, hu, he, hd⟩
    · subst h0
      decide
    · rw [← normalize_indicator_pyStrip x,
        normalize_indicator_of_stripped (pyStrip_idem x),
        is_url_strip, is_domain_strip, is_hash_strip, is_ip_strip,
        if_neg (by simp [hu]), if_neg (by simp [hd]), if_neg (by simp [hh]),
        if_neg (by simp [hip])]
  · intro h
    obtain ⟨hne, hip, hh, hu, he⟩ := detect_type_email h
    rw [← normalize_indicator_pyStrip x,
      normalize_indicator_of_stripped (pyStrip_idem x),
      is_url_strip, is_domain_strip, is_hash_strip, is_ip_strip,
      if_neg (by simp [hu])]
    by_cases hd : is_domain x = true
    · rw [if_pos hd, if_pos hd]
    · rw [if_neg hd, if_neg (by simp [hh]), if_neg (by simp [hip]), if_neg hd]

/-- Witness for C4: an Unknown-typed input and an Email-typed input. -/
theorem claim_C4_witness :
    normalize_indicator "x!!".data = pyStrip "x!!".data ∧
      normalize_indicator "A@B.CO".data =
        (if is_domain "A@B.CO".data then pyLower (pyStrip "A@B.CO".data)
         else pyStrip "A@B.CO".data) :=
  ⟨(claim_C4 "x!!".data).1 (by decide), (claim_C4 "A@B.CO".data).2 (by decide)⟩

/-- C1: per-record upsert behaviour, in input order. When no row carries the
record's `(indicator, type)` key, a fresh row is appended with
`first_seen = last_seen = date_collected`, seen count 1, defaulted
confidence and threat level, and the `new` counter is bumped; when a row
with the key exists, `last_seen` becomes `max(existing, date_collected)`,
the seen count grows by exactly one, and source, confidence, threat level
and metadata are overwritten unconditionally, bumping `updated`. -/
theorem claim_C1 (store : List StoredIoc) (ioc : InputIoc)
    (rest : List InputIoc) (stats : UpsertStats) (ind ty src dc md : PyStr)
    (hind : ioc.indicator = some ind) (hty : ioc.type = some ty)
    (hsrc : ioc.source = some src) (hdc : ioc.date_collected = some dc)
    (hmd : jsonDumps (ioc.metadata.getD PyMeta.emptyDict) = some md) :
    (store.find? (fun r => r.indicator == ind && r.type == ty) = none →
      upsertGo store (ioc :: rest) stats =
        upsertGo (store ++ [{ indicator := ind, type := ty, source := src,
                              first_seen := dc, last_seen := dc,
                              seen_count := 1,
                              confidence := ioc.confidence.getD medium,
                              threat_level := ioc.threat_level.getD medium,
                              metadata := md }]) rest
          { stats with processed := stats.processed + 1,
                       new := stats.new + 1 }) ∧
    (∀ row, store.find? (fun r => r.indicator == ind && r.type == ty) =
        some row →
      upsertGo store (ioc :: rest) stats =
        upsertGo (store.map (fun r =>
            if r.indicator == ind && r.type == ty then
              { r with last_seen := pyMax row.last_seen dc,
                       seen_count := row.seen_count + 1,
                       source := src,
                       confidence := ioc.confidence.getD medium,
                       threat_level := ioc.threat_level.getD medium,
                       metadata := md }
            else r)) rest
          { stats with processed := stats.processed + 1,
                       updated := stats.updated + 1 }) := by
  constructor
  · intro hf
    exact upsertGo_cons_insert rest stats
      (processIoc_insert hind hty hsrc hdc hmd hf)
  · intro row hf
    exact upsertGo_cons_update rest stats
      (processIoc_update hind hty hsrc hdc hmd hf)

/-- Witness for C1: one insert into the empty store and one update of the
row it produced. -/
theorem claim_C1_witness :
    (upsertGo []
        [{ indicator := some "a".data, type := some "t".data,
           source := some "s".data, date_collected := some "d".data,
           confidence := none, threat_level := none, metadata := none }]
        ⟨0, 0, 0, 0⟩ =
      upsertGo [{ indicator := "a".data, type := "t".data,
                  source := "s".data, first_seen := "d".data,
                  last_seen := "d".data, seen_count := 1,
                  confidence := medium, threat_level := medium,
                  metadata := "\x7b\x7d".data }] [] ⟨1, 1, 0, 0⟩) ∧
    (upsertGo [{ indicator := "a".data, type := "t".data,
                 source := "s".data, first_seen := "d".data,
                 last_seen := "d".data, seen_count := 1,
                 confidence := medium, threat_level := medium,
                 metadata := "\x7b\x7d".data }]
        [{ indicator := some "a".data, type := some "t".data,
           source := some "s".data, date_collected := some "d".data,
           confidence := none, threat_level := none, metadata := none }]
        ⟨0, 0, 0, 0⟩ =
      upsertGo [{ indicator := "a".data, type := "t".data,
                  source := "s".data, first_seen := "d".data,
                  last_seen := "d".data, seen_count := 2,
                  confidence := medium, threat_level := medium,
                  metadata := "\x7b\x7d".data }] [] ⟨1, 0, 1, 0⟩) :=
  ⟨(claim_C1 []
      { indicator := some "a".data, type := some "t".data,
        source := some "s".data, date_collected := some "d".data,
        confidence := none, threat_level := none, metadata := none }
      [] ⟨0, 0, 0, 0⟩ "a".data "t".data "s".data "d".data "\x7b\x7d".data
      rfl rfl rfl rfl rfl).1 rfl,
   (claim_C1 [{ indicator := "a".data, type := "t".data,
                source := "s".data, first_seen := "d".data,
                last_seen := "d".data, seen_count := 1,
                confidence := medium, threat_level := medium,
                metadata := "\x7b\x7d".data }]
      { indicator := some "a".data, type := some "t".data,
        source := some "s".data, date_collected := some "d".data,
        confidence := none, threat_level := none, metadata := none }
      [] ⟨0, 0, 0, 0⟩ "a".data "t".data "s".data "d".data "\x7b\x7d".data
      rfl rfl rfl rfl rfl).2
      { indicator := "a".data, type := "t".data,
        source := "s".data, first_seen := "d".data,
        last_seen := "d".data, seen_count := 1,
        confidence := medium, threat_level := medium,
        metadata := "\x7b\x7d".data } rfl⟩

/-- C2: the store invariant — `first_seen <= last_seen`, positive seen
count, unique `(indicator, type)` keys — holds after every upsert batch
applied to an invariant-satisfying store. -/
theorem claim_C2 (store : List StoredIoc) (batch : List InputIoc)
    (hinv : StoreInvariant store) :
    StoreInvariant (insert_or_update_iocs store batch).store :=
  upsert_invariant_go batch store ⟨0, 0, 0, 0⟩ hinv

/-- Witness for C2: a one-record batch into the empty store. -/
theorem claim_C2_witness :
    StoreInvariant (insert_or_update_iocs []
      [{ indicator := some "a".data, type := some "t".data,
         source := some "s".data, date_collected := some "d".data,
         confidence := none, threat_level := none,
         metadata := none }]).store :=
  claim_C2 []
    [{ indicator := some "a".data, type := some "t".data,
       source := some "s".data, date_collected := some "d".data,
       confidence := none, threat_level := none, metadata := none }]
    ⟨fun r hr => absurd hr (List.not_mem_nil r), List.Pairwise.nil⟩

/-- C5 counterexample: with one feed returning no items, `run_collection`
returns `no_data` with zero stats but writes NO collection log row — the
spec's 'a log entry is still written' clause is false (the
`log_collection` call sits inside the `if all_iocs:` branch). -/
theorem claim_C5_counterexample :
    (run_collection ⟨[], []⟩ [Except.ok []] "T".data).2 =
      some ⟨"no_data", ⟨0, 0, 0, 0⟩, [], 0⟩ ∧
    (run_collection ⟨[], []⟩ [Except.ok []] "T".data).1.logs = [] := by
  decide

/-- C5 (corrected): when the collected list of a cycle is empty the cycle
returns status `no_data` with stats `\x7bprocessed:0,new:0,updated:0,errors:0\x7d`,
and the database is left untouched — in particular no collection log entry
is written. -/
theorem claim_C5 (db : DBState) (feeds : List FeedResult) (now : PyStr)
    (h : collectedIocs feeds = []) :
    run_collection db feeds now =
      (db, some ⟨"no_data", ⟨0, 0, 0, 0⟩, collectionErrors feeds, 0⟩) ∧
    (run_collection db feeds now).1.logs = db.logs :=
  ⟨run_collection_empty db feeds now h,
   by rw [run_collection_empty db feeds now h]⟩

/-- Witness for C5: one empty feed and one failing feed. -/
theorem claim_C5_witness :
    (run_collection ⟨[], []⟩ [Except.ok [], Except.error "boom".data]
        "T".data =
      (⟨[], []⟩, some ⟨"no_data", ⟨0, 0, 0, 0⟩,
        collectionErrors [Except.ok [], Except.error "boom".data], 0⟩)) ∧
    (run_collection ⟨[], []⟩ [Except.ok [], Except.error "boom".data]
        "T".data).1.logs = ([] : List LogEntry) :=
  claim_C5 ⟨[], []⟩ [Except.ok [], Except.error "boom".data] "T".data rfl

/-- C6 counterexample: a record whose indicator, type and source are all
present but hold the EMPTY string still validates — `validate_ioc` checks
key presence only, not non-emptiness, so the spec's 'all non-empty' reading
is false. -/
theorem claim_C6_counterexample :
    validate_ioc { indicator := some [], type := some [], source := some [],
                   date_collected := none, confidence := none,
                   threat_level := none, metadata := none } = true := rfl

/-- C6 (corrected): `validate_ioc` returns true iff the indicator, type and
source KEYS are present, whatever their values — empty strings included. -/
theorem claim_C6 (ioc : InputIoc) :
    validate_ioc ioc = true ↔
      ioc.indicator.isSome = true ∧ ioc.type.isSome = true ∧
        ioc.source.isSome = true := by
  simp [validate_ioc, and_assoc]

/-- C7 counterexample: a record with no `indicator` key raises inside the
`except` handler itself (its log f-string subscripts `ioc['indicator']`),
so the batch IS aborted — the spec's 'never aborts the batch' is false. -/
theorem claim_C7_counterexample :
    (insert_or_update_iocs []
      [{ indicator := none, type := none, source := none,
         date_collected := none, confidence := none, threat_level := none,
         metadata := none }]).aborted = true := rfl

/-- C7 (corrected): per-record exceptions are caught, bump `errors` and let
the batch continue — but only for records that carry an `indicator` key
(the handler re-raises on the others). For such batches nothing aborts and
`processed` counts every record, erroring ones included; the last conjunct
is the continuation step for one caught error. -/
theorem claim_C7 (store : List StoredIoc) (batch rest : List InputIoc)
    (ioc : InputIoc) (stats : UpsertStats) (e : Unit)
    (h : ∀ i ∈ batch, i.indicator.isSome = true)
    (hi : ioc.indicator.isSome = true)
    (hp : processIoc store ioc = .error e) :
    (insert_or_update_iocs store batch).aborted = false ∧
    (insert_or_update_iocs store batch).stats.processed = batch.length ∧
    upsertGo store (ioc :: rest) stats =
      upsertGo store rest { stats with processed := stats.processed + 1,
                                       errors := stats.errors + 1 } := by
  obtain ⟨h1, h2⟩ := upsertGo_no_abort batch h store ⟨0, 0, 0, 0⟩
  refine ⟨h1, ?_, ?_⟩
  · show (upsertGo store batch ⟨0, 0, 0, 0⟩).stats.processed = batch.length
    rw [h2]
    dsimp only
    omega
  · rw [upsertGo_cons_error rest stats hp, if_pos hi]

/-- Witness for C7: a record that has an indicator but no source, so the
INSERT raises, is caught, and the loop moves on. -/
theorem claim_C7_witness :
    (insert_or_update_iocs []
      [{ indicator := some "a".data, type := some "t".data, source := none,
         date_collected := none, confidence := none, threat_level := none,
         metadata := none }]).aborted = false ∧
    (insert_or_update_iocs []
      [{ indicator := some "a".data, type := some "t".data, source := none,
         date_collected := none, confidence := none, threat_level := none,
         metadata := none }]).stats.processed = 1 ∧
    upsertGo []
      [{ indicator := some "a".data, type := some "t".data, source := none,
         date_collected := none, confidence := none, threat_level := none,
         metadata := none }] ⟨0, 0, 0, 0⟩ =
      upsertGo [] [] ⟨1, 0, 0, 1⟩ :=
  claim_C7 []
    [{ indicator := some "a".data, type := some "t".data, source := none,
       date_collected := none, confidence := none, threat_level := none,
       metadata := none }] []
    { indicator := some "a".data, type := some "t".data, source := none,
      date_collected := none, confidence := none, threat_level := none,
      metadata := none } ⟨0, 0, 0, 0⟩ () (by decide) rfl rfl

/-- C8: `run_collection` reports `no_data` iff the cycle collected nothing
(and `success` otherwise, for batches whose records carry indicator keys —
which normalized records always do), and a failing feed changes neither the
persisted store nor the reported status: it only adds its message to the
error list. -/
theorem claim_C8 (db : DBState) (feeds feeds1 feeds2 : List FeedResult)
    (e now : PyStr)
    (hkeys : ∀ i ∈ collectedIocs feeds, i.indicator.isSome = true) :
    ((run_collection db feeds now).2.map (fun r => r.status) =
        some "no_data" ↔ collectedIocs feeds = []) ∧
    (collectedIocs feeds ≠ [] →
      (run_collection db feeds now).2.map (fun r => r.status) =
        some "success") ∧
    (run_collection db (feeds1 ++ [Except.error e] ++ feeds2) now).1.iocs =
      (run_collection db (feeds1 ++ feeds2) now).1.iocs ∧
    (run_collection db (feeds1 ++ [Except.error e] ++ feeds2) now).2.map
        (fun r => r.status) =
      (run_collection db (feeds1 ++ feeds2) now).2.map
        (fun r => r.status) := by
  have hsucc : collectedIocs feeds ≠ [] →
      (run_collection db feeds now).2.map (fun r => r.status) =
        some "success" := by
    intro hne
    rw [run_collection_status_nonempty db feeds now hne]
    have hab : (insert_or_update_iocs db.iocs (collectedIocs feeds)).aborted
        = false := (upsertGo_no_abort (collectedIocs feeds) hkeys db.iocs
          ⟨0, 0, 0, 0⟩).1
    rw [if_neg (by simp [hab])]
  have h1 : collectedIocs [(Except.error e : FeedResult)] = [] := rfl
  have hcoll : collectedIocs (feeds1 ++ [Except.error e] ++ feeds2) =
      collectedIocs (feeds1 ++ feeds2) := by
    rw [collectedIocs_append, collectedIocs_append, h1, List.append_nil,
      ← collectedIocs_append]
  refine ⟨⟨?_, ?_⟩, hsucc, ?_, ?_⟩
  · intro hmap
    by_contra hne
    rw [hsucc hne] at hmap
    exact absurd (Option.some.inj hmap) (by decide)
  · intro h0
    rw [run_collection_empty db feeds now h0]
    rfl
  · by_cases hc : collectedIocs (feeds1 ++ feeds2) = []
    · rw [run_collection_empty db _ now (hcoll.trans hc),
        run_collection_empty db _ now hc]
    · rw [run_collection_store_nonempty db _ now (by rw [hcoll]; exact hc),
        run_collection_store_nonempty db _ now hc, hcoll]
  · by_cases hc : collectedIocs (feeds1 ++ feeds2) = []
    · rw [run_collection_empty db _ now (hcoll.trans hc),
        run_collection_empty db _ now hc]
      rfl
    · rw [run_collection_status_nonempty db _ now (by rw [hcoll]; exact hc),
        run_collection_status_nonempty db _ now hc, hcoll]

/-- Witness for C8 at an empty collection with one failing feed spliced in. -/
theorem claim_C8_witness :
    (((run_collection ⟨[], []⟩ [Except.ok []] "T".data).2.map
        (fun r => r.status) = some "no_data") ↔
      collectedIocs [Except.ok []] = []) ∧
    (collectedIocs [Except.ok []] ≠ [] →
      (run_collection ⟨[], []⟩ [Except.ok []] "T".data).2.map
        (fun r => r.status) = some "success") ∧
    (run_collection ⟨[], []⟩ ([] ++ [Except.error "x".data] ++ [])
        "T".data).1.iocs =
      (run_collection ⟨[], []⟩ ([] ++ []) "T".data).1.iocs ∧
    (run_collection ⟨[], []⟩ ([] ++ [Except.error "x".data] ++ [])
        "T".data).2.map (fun r => r.status) =
      (run_collection ⟨[], []⟩ ([] ++ []) "T".data).2.map
        (fun r => r.status) :=
  claim_C8 ⟨[], []⟩ [Except.ok []] [] [] "x".data "T".data (by decide)

/-- C10: whenever the batch completes (is not aborted), every attempted
record lands in exactly one of the `new`, `updated` or `errors` counters:
`processed = new + updated + errors`. -/
theorem claim_C10 (store : List StoredIoc) (batch : List InputIoc)
    (hab : (insert_or_update_iocs store batch).aborted = false) :
    (insert_or_update_iocs store batch).stats.processed =
      (insert_or_update_iocs store batch).stats.new +
      (insert_or_update_iocs store batch).stats.updated +
      (insert_or_update_iocs store batch).stats.errors :=
  upsertGo_balance batch store ⟨0, 0, 0, 0⟩ rfl hab

/-- Witness for C10: a batch with one complete and one erroring record. -/
theorem claim_C10_witness :
    (insert_or_update_iocs []
      [{ indicator := some "a".data, type := some "t".data,
         source := some "s".data, date_collected := some "d".data,
         confidence := none, threat_level := none, metadata := none },
       { indicator := some "b".data, type := some "t".data, source := none,
         date_collected := none, confidence := none, threat_level := none,
         metadata := none }]).stats.processed =
      (insert_or_update_iocs []
        [{ indicator := some "a".data, type := some "t".data,
           source := some "s".data, date_collected := some "d".data,
           confidence := none, threat_level := none, metadata := none },
         { indicator := some "b".data, type := some "t".data, source := none,
           date_collected := none, confidence := none, threat_level := none,
           metadata := none }]).stats.new +
      (insert_or_update_iocs []
        [{ indicator := some "a".data, type := some "t".data,
           source := some "s".data, date_collected := some "d".data,
           confidence := none, threat_level := none, metadata := none },
         { indicator := some "b".data, type := some "t".data, source := none,
           date_collected := none, confidence := none, threat_level := none,
           metadata := none }]).stats.updated +
      (insert_or_update_iocs []
        [{ indicator := some "a".data, type := some "t".data,
           source := some "s".data, date_collected := some "d".data,
           confidence := none, threat_level := none, metadata := none },
         { indicator := some "b".data, type := some "t".data, source := none,
           date_collected := none, confidence := none, threat_level := none,
           metadata := none }]).stats.errors :=
  claim_C10 []
    [{ indicator := some "a".data, type := some "t".data,
       source := some "s".data, date_collected := some "d".data,
       confidence := none, threat_level := none, metadata := none },
     { indicator := some "b".data, type := some "t".data, source := none,
       date_collected := none, confidence := none, threat_level := none,
       metadata := none }] (by decide)

end CTI
